import Mathlib

/-!
Verification of the `quantity-math-js` core: dimension vectors, the unit and
prefix tables, the unit-string parser and formatter, and the conversion
engine.  Strings are modelled as `List Char` (JS strings are sequences of
UTF-16 code units; every string appearing here is ASCII apart from `µ` and
`⋅`, for which code units and code points agree).  JS numbers are modelled as
exact rationals `ℚ`: the source stores decimal literals which we carry
exactly, and every claim checked numerically is stated with the relative
tolerance `1e-7` that the repository's own test helper (`assertAlmostEquals`
in the test file) uses.  Integer exponents are modelled as `ℤ`.
-/

namespace QuantityMathJs

/--
The error taxonomy of the library, by kind.  The source throws
`QuantityError` with a message (plus the subclass `InvalidConversionError`);
each constructor below corresponds to one family of throw sites:
`invalidUnitString` for "Cannot parse a unit with 2 or more \x22/\x22 symbols",
`unknownUnit` for "Unable to parse the unit …" and "Unknown/unsupported unit …",
`invalidExponent` for "Invalid exponent/power on unit …",
`invalidDimensions` for the three `Dimensions` constructor throws,
`invalidOffsetUse` and `invalidConversion` for the conversion engine.
-/
inductive QuantityError where
  | invalidUnitString
  | unknownUnit
  | invalidExponent
  | invalidDimensions
  | invalidOffsetUse
  | invalidConversion
deriving DecidableEq, Repr

instance {ε α : Type} [DecidableEq ε] [DecidableEq α] : DecidableEq (Except ε α) := fun a b =>
  match a, b with
  | .error e, .error f =>
    if h : e = f then isTrue (by rw [h]) else isFalse (by intro hh; cases hh; exact h rfl)
  | .ok x, .ok y =>
    if h : x = y then isTrue (by rw [h]) else isFalse (by intro hh; cases hh; exact h rfl)
  | .error _, .ok _ => isFalse (by intro hh; cases hh)
  | .ok _, .error _ => isFalse (by intro hh; cases hh)

/-- ASCII whitespace, as matched by the JS regex class `\s` (restricted to
ASCII; the unicode spaces `\s` also matches never occur in this library's
strings). -/
def isJsSpace (c : Char) : Bool :=
  c = ' ' || c = '\t' || c = '\n' || c = '\r' || c = '\x0b' || c = '\x0c'

/-- `String.prototype.trim()` on the left. -/
def trimL (l : List Char) : List Char := l.dropWhile (fun c => isJsSpace c)

/-- `String.prototype.trim()`: drop whitespace from both ends. -/
def jsTrim (l : List Char) : List Char := (trimL ((trimL l).reverse)).reverse

/-- `str.split("/")`: the sections of `l` between `'/'` characters
(adjacent separators give empty sections; always at least one section). -/
def splitOnSlash : List Char → List (List Char)
  | [] => [[]]
  | c :: rest =>
    if c = '/' then [] :: splitOnSlash rest
    else
      match splitOnSlash rest with
      | t :: ts => (c :: t) :: ts
      | [] => [[c]]

/--
`str.split(/\s+|⋅/)`: one separator is either a maximal run of whitespace or
a single `⋅` (U+22C5).  The flag records whether we are immediately inside a
whitespace run (so that further whitespace extends the same separator).
Mirrors the JS `String.prototype.split` semantics including the empty pieces
produced between adjacent separators (e.g. a space next to a `⋅`).
-/
def splitSepAux : List Char → Bool → List (List Char)
  | [], _ => [[]]
  | c :: rest, inRun =>
    if c = '⋅' then [] :: splitSepAux rest false
    else if isJsSpace c then
      if inRun then splitSepAux rest true
      else [] :: splitSepAux rest true
    else
      match splitSepAux rest false with
      | t :: ts => (c :: t) :: ts
      | [] => [[c]]

/-- `str.split(UNIT_SEPARATOR)` where `UNIT_SEPARATOR = /\s+|⋅/g`. -/
def splitSep (l : List Char) : List (List Char) := splitSepAux l false

/--
`unitStr.indexOf("^")` and the two `substring` calls around it: returns the
part before the first `'^'` and, when a `'^'` is present, the part after it.
-/
def splitAtFirstCaret : List Char → List Char × Option (List Char)
  | [] => ([], none)
  | c :: rest =>
    if c = '^' then ([], some rest)
    else
      let (a, b) := splitAtFirstCaret rest
      (c :: a, b)

/-- The decimal digit character for `n < 10`. -/
def digitChar (n : Nat) : Char := Char.ofNat (48 + n)

/-- Fuel-driven core of `natDigits` (structural recursion, so that the
kernel can evaluate it); the fuel never runs out when it exceeds `n`. -/
def natDigitsF : Nat → Nat → List Char
  | 0, _ => []
  | fuel + 1, n =>
    if n < 10 then [digitChar n] else natDigitsF fuel (n / 10) ++ [digitChar (n % 10)]

/-- Decimal digits of a natural number, most significant first
(the JS `Number.prototype.toString` rendering of a nonnegative integer). -/
def natDigits (n : Nat) : List Char := natDigitsF (n + 1) n

/-- `natDigitsF` does not depend on the fuel once it exceeds the argument. -/
theorem natDigitsF_congr : ∀ (f1 f2 n : Nat), n < f1 → n < f2 →
    natDigitsF f1 n = natDigitsF f2 n := by
  intro f1
  induction f1 with
  | zero => intro f2 n h1 h2; omega
  | succ f1 ih =>
    intro f2 n h1 h2
    cases f2 with
    | zero => omega
    | succ f2 =>
      by_cases h : n < 10
      · simp only [natDigitsF, if_pos h]
      · simp only [natDigitsF, if_neg h]
        rw [ih f2 (n / 10) (by omega) (by omega)]

/-- The recursive unfolding of `natDigits`. -/
theorem natDigits_eq (n : Nat) :
    natDigits n = if n < 10 then [digitChar n]
      else natDigits (n / 10) ++ [digitChar (n % 10)] := by
  show natDigitsF (n + 1) n = _
  by_cases h : n < 10
  · simp only [natDigitsF, if_pos h]
  · simp only [natDigitsF, if_neg h]
    rw [natDigitsF_congr n (n / 10 + 1) (n / 10) (by omega) (by omega)]
    rfl

/-- The JS rendering `${p}` of an integer (`"-"` then digits when negative).
JS switches to exponent notation only beyond `1e21`, far outside any exponent
a unit string uses; we render plain digits always. -/
def intToDigits (p : Int) : List Char :=
  if p < 0 then '-' :: natDigits p.natAbs else natDigits p.natAbs

def isDigitChar (c : Char) : Bool := 48 ≤ c.toNat && c.toNat ≤ 57

/-- Value of a decimal digit list, most significant first. -/
def digitsToNat (ds : List Char) : Nat :=
  ds.foldl (fun n c => 10 * n + (c.toNat - 48)) 0

def isHexDigit (c : Char) : Bool :=
  isDigitChar c || (97 ≤ c.toNat && c.toNat ≤ 102) || (65 ≤ c.toNat && c.toNat ≤ 70)

def hexVal (c : Char) : Nat :=
  if c.toNat ≤ 57 then c.toNat - 48
  else if c.toNat ≤ 70 then c.toNat - 55
  else c.toNat - 87

def hexToNat (ds : List Char) : Nat := ds.foldl (fun n c => 16 * n + hexVal c) 0
def octToNat (ds : List Char) : Nat := ds.foldl (fun n c => 8 * n + (c.toNat - 48)) 0
def binToNat (ds : List Char) : Nat := ds.foldl (fun n c => 2 * n + (c.toNat - 48)) 0

/-- The optional exponent part of a JS decimal literal: `""`, or
`e`/`E` followed by an optional sign and a nonempty digit run. -/
def jsExpPart (r : List Char) (q : ℚ) : Option ℚ :=
  match r with
  | [] => some q
  | e :: r2 =>
    if e = 'e' || e = 'E' then
      let (neg, r3) : Bool × List Char :=
        match r2 with
        | '+' :: r3 => (false, r3)
        | '-' :: r3 => (true, r3)
        | r3 => (false, r3)
      let (ds, r4) := r3.span (fun c => isDigitChar c)
      if ds = [] || r4 ≠ [] then none
      else some (if neg then q / 10 ^ digitsToNat ds else q * 10 ^ digitsToNat ds)
    else none

/-- An unsigned JS decimal literal: `digits [. digits] [exp]` or
`. digits [exp]`. -/
def jsDecimal (t : List Char) : Option ℚ :=
  let (intPart, r1) := t.span (fun c => isDigitChar c)
  match r1 with
  | '.' :: r2 =>
    let (fracPart, r3) := r2.span (fun c => isDigitChar c)
    if intPart = [] && fracPart = [] then none
    else
      jsExpPart r3 ((digitsToNat intPart : ℚ) +
        (digitsToNat fracPart : ℚ) / 10 ^ fracPart.length)
  | _ => if intPart = [] then none else jsExpPart r1 (digitsToNat intPart)

/--
The JS `Number(string)` coercion, modelled over exact rationals.
`none` plays the role of `NaN` (and of `±Infinity`: the only consumer below
feeds the result to an `isInteger` test, which rejects `NaN` and `±Infinity`
alike).  Handles the whitespace trim, the empty string (`0`), signed decimal
literals with optional fraction and exponent, and the unsigned `0x`/`0o`/`0b`
integer forms.  JS evaluates to the nearest binary double while we keep the
exact rational; the difference is irrelevant for integrality checks of
realistic unit exponents.
-/
def jsNumber (s : List Char) : Option ℚ :=
  match jsTrim s with
  | [] => some 0
  | c :: r =>
    if c = '+' then
      if r = "Infinity".toList then none else jsDecimal r
    else if c = '-' then
      if r = "Infinity".toList then none else (jsDecimal r).map fun q => -q
    else if c = '0' then
      match r with
      | [] => jsDecimal (c :: r)
      | x :: r2 =>
        if x = 'x' || x = 'X' then
          if r2 ≠ [] && r2.all (fun ch => isHexDigit ch) then some (hexToNat r2) else none
        else if x = 'o' || x = 'O' then
          if r2 ≠ [] && r2.all (fun ch => 48 ≤ ch.toNat && ch.toNat ≤ 55) then
            some (octToNat r2)
          else none
        else if x = 'b' || x = 'B' then
          if r2 ≠ [] && r2.all (fun ch => ch = '0' || ch = '1') then some (binToNat r2) else none
        else jsDecimal (c :: r)
    else if (c :: r) = "Infinity".toList then none
    else jsDecimal (c :: r)

/-- JS string comparison `a < b` (lexicographic by code unit; a proper
prefix is smaller).  Used by the `Dimensions` constructor's sortedness
check on custom dimension names. -/
def jsStrLt : List Char → List Char → Bool
  | [], [] => false
  | [], _ :: _ => true
  | _ :: _, [] => false
  | a :: as, b :: bs =>
    if a = b then jsStrLt as bs else decide (a.toNat < b.toNat)

/-- How many basic dimensions there are (mass, length, time, temp, current,
substance, luminosity, information), from `dimensions.ts`. -/
def numBasicDimensions : Nat := 8

/--
The `Dimensions` record of `dimensions.ts`: the integer exponent vector
(8 basic slots plus up to 4 custom slots), the optional parallel list of
custom dimension names, and the affine offset (only used for temperatures).
Validation performed by the TypeScript constructor lives in `mkDimensions`.
-/
structure Dimensions where
  dimensions : List Int
  customDimensionNames : Option (List (List Char))
  offset : ℚ
deriving DecidableEq, Repr

/--
The `Dimensions` constructor of `dimensions.ts`: fails (with an
`InvalidDimensions`-kind `QuantityError`) when fewer than 8 exponents are
given, when the vector length does not equal 8 plus the number of custom
names, or when the custom names are not sorted strictly ascending under the
JS string order.  The TypeScript tuple types additionally bound the vector at
12 entries and the names at 4; those bounds are static, not runtime checks.
-/
def mkDimensions (dims : List Int) (customDimensionNames : Option (List (List Char)))
    (offset : ℚ) : Except QuantityError Dimensions :=
  if dims.length < numBasicDimensions then
    .error .invalidDimensions
  else
    if dims.length ≠ numBasicDimensions + (customDimensionNames.map List.length).getD 0 then
      .error .invalidDimensions
    else
      match customDimensionNames with
      | some names =>
        if names.Chain' (fun a b => jsStrLt a b) then
          .ok ⟨dims, customDimensionNames, offset⟩
        else .error .invalidDimensions
      | none => .ok ⟨dims, customDimensionNames, offset⟩

/-- `Dimensions.equalTo` from `dimensions.ts`: offsets equal, vectors of equal
length and element-wise equal, name lists of equal length and (when present)
element-wise equal. -/
def Dimensions.equalTo (a b : Dimensions) : Bool :=
  b.offset = a.offset &&
  a.dimensions.length = b.dimensions.length &&
  (a.dimensions.enum.all fun di => b.dimensions[di.1]? = some di.2) &&
  (a.customDimensionNames.map List.length) = (b.customDimensionNames.map List.length) &&
  (match a.customDimensionNames with
   | none => true
   | some l => l.enum.all fun ni => (b.customDimensionNames.bind fun m => m[ni.1]?) = some ni.2)

/-- The pre-built dimensionless singleton. -/
def Dimensionless : Dimensions := ⟨[0, 0, 0, 0, 0, 0, 0, 0], none, 0⟩

/--
A unit descriptor, `interface Unit` in `units.ts`: SI scale `s`, dimensions
`d`, optional affine `offset`, and the two prefixability flags (optional
`true` in TypeScript, here plain booleans).
-/
structure UnitDef where
  s : ℚ
  d : Dimensions
  offset : Option ℚ := none
  prefixable : Bool := false
  binaryPrefixable : Bool := false
deriving DecidableEq, Repr

def MASS_DIMENSION : Dimensions := ⟨[1, 0, 0, 0, 0, 0, 0, 0], none, 0⟩
def DIST_DIMENSION : Dimensions := ⟨[0, 1, 0, 0, 0, 0, 0, 0], none, 0⟩
def TIME_DIMENSION : Dimensions := ⟨[0, 0, 1, 0, 0, 0, 0, 0], none, 0⟩
def TEMP_DIMENSION : Dimensions := ⟨[0, 0, 0, 1, 0, 0, 0, 0], none, 0⟩
def NRGY_DIMENSIONS : Dimensions := ⟨[1, 2, -2, 0, 0, 0, 0, 0], none, 0⟩
def POWR_DIMENSIONS : Dimensions := ⟨[1, 2, -3, 0, 0, 0, 0, 0], none, 0⟩
def VOLM_DIMENSIONS : Dimensions := ⟨[0, 3, 0, 0, 0, 0, 0, 0], none, 0⟩
def AREA_DIMENSIONS : Dimensions := ⟨[0, 2, 0, 0, 0, 0, 0, 0], none, 0⟩
def INFO_DIMENSIONS : Dimensions := ⟨[0, 0, 0, 0, 0, 0, 0, 1], none, 0⟩
def PRSR_DIMENSIONS : Dimensions := ⟨[1, -1, -2, 0, 0, 0, 0, 0], none, 0⟩

/--
The SI prefix table of `units.ts` as an association list, decimal literals
carried exactly as rationals.  Single-character keys are the metric prefixes
(`da` is deliberately unsupported); two-character keys are the binary
prefixes.
-/
def prefixes : List (List Char × ℚ) := [
  ("q".toList, 1 / 10 ^ 30),
  ("r".toList, 1 / 10 ^ 27),
  ("y".toList, 1 / 10 ^ 24),
  ("z".toList, 1 / 10 ^ 21),
  ("a".toList, 1 / 10 ^ 18),
  ("f".toList, 1 / 10 ^ 15),
  ("p".toList, 1 / 10 ^ 12),
  ("n".toList, 1 / 10 ^ 9),
  ("u".toList, 1 / 10 ^ 6),
  ("µ".toList, 1 / 10 ^ 6),
  ("m".toList, 1 / 10 ^ 3),
  ("c".toList, 1 / 10 ^ 2),
  ("d".toList, 1 / 10),
  ("h".toList, 10 ^ 2),
  ("k".toList, 10 ^ 3),
  ("M".toList, 10 ^ 6),
  ("G".toList, 10 ^ 9),
  ("T".toList, 10 ^ 12),
  ("P".toList, 10 ^ 15),
  ("E".toList, 10 ^ 18),
  ("Z".toList, 10 ^ 21),
  ("Y".toList, 10 ^ 24),
  ("R".toList, 10 ^ 27),
  ("Q".toList, 10 ^ 30),
  ("Ki".toList, 1024),
  ("Mi".toList, 1048576),
  ("Gi".toList, 1073741824),
  ("Ti".toList, 1099511627776),
  ("Pi".toList, 1125899906842624),
  ("Ei".toList, 1152921504606847 * 10 ^ 3),
  ("Zi".toList, 11805916207174113 * 10 ^ 5),
  ("Yi".toList, 12089258196146292 * 10 ^ 8)]

/--
The built-in unit table of `units.ts` (the uncommented entries), an
association list from unit symbol to descriptor, each decimal scale carried
exactly as a rational.
-/
def builtInUnits : List (List Char × UnitDef) := [
  ("%".toList, { s := 1 / 10 ^ 2, d := Dimensionless }),
  ("ppm".toList, { s := 1 / 10 ^ 6, d := Dimensionless }),
  ("g".toList, { s := 1 / 10 ^ 3, d := MASS_DIMENSION, prefixable := true }),
  ("lb".toList, { s := 45359237 / 10 ^ 8, d := MASS_DIMENSION }),
  ("m".toList, { s := 1, d := DIST_DIMENSION, prefixable := true }),
  ("in".toList, { s := 254 / 10 ^ 4, d := DIST_DIMENSION }),
  ("ft".toList, { s := 3048 / 10 ^ 4, d := DIST_DIMENSION }),
  ("mi".toList, { s := 1609344 / 10 ^ 3, d := DIST_DIMENSION }),
  ("s".toList, { s := 1, d := TIME_DIMENSION, prefixable := true }),
  ("min".toList, { s := 60, d := TIME_DIMENSION }),
  ("h".toList, { s := 3600, d := TIME_DIMENSION }),
  ("day".toList, { s := 86400, d := TIME_DIMENSION }),
  ("week".toList, { s := 604800, d := TIME_DIMENSION }),
  ("yr".toList, { s := 31536000, d := TIME_DIMENSION }),
  ("ka".toList, { s := 31536 * 10 ^ 6, d := TIME_DIMENSION }),
  ("Ma".toList, { s := 31536 * 10 ^ 9, d := TIME_DIMENSION }),
  ("Ga".toList, { s := 31536 * 10 ^ 12, d := TIME_DIMENSION }),
  ("K".toList, { s := 1, d := TEMP_DIMENSION, prefixable := true }),
  ("deltaC".toList, { s := 1, d := TEMP_DIMENSION }),
  ("degF".toList, { s := 5555555555555556 / 10 ^ 16, d := TEMP_DIMENSION,
                    offset := some (2553722222222222 / 10 ^ 13) }),
  ("degC".toList, { s := 1, d := TEMP_DIMENSION, offset := some (27315 / 10 ^ 2) }),
  ("c".toList, { s := 299792458, d := ⟨[0, 1, -1, 0, 0, 0, 0, 0], none, 0⟩ }),
  ("Pa".toList, { s := 1, d := PRSR_DIMENSIONS, prefixable := true }),
  ("psi".toList, { s := 689475729316836 / 10 ^ 11, d := PRSR_DIMENSIONS }),
  ("atm".toList, { s := 101325, d := PRSR_DIMENSIONS }),
  ("N".toList, { s := 1, d := ⟨[1, 1, -2, 0, 0, 0, 0, 0], none, 0⟩, prefixable := true }),
  ("J".toList, { s := 1, d := NRGY_DIMENSIONS, prefixable := true }),
  ("eV".toList, { s := 1602176634 / 10 ^ 28, d := NRGY_DIMENSIONS, prefixable := true }),
  ("BTU".toList, { s := 105505585 / 10 ^ 5, d := NRGY_DIMENSIONS }),
  ("Wh".toList, { s := 3600, d := NRGY_DIMENSIONS, prefixable := true }),
  ("W".toList, { s := 1, d := POWR_DIMENSIONS, prefixable := true }),
  ("HP".toList, { s := 74569987158227 / 10 ^ 11, d := POWR_DIMENSIONS }),
  ("L".toList, { s := 1 / 10 ^ 3, d := VOLM_DIMENSIONS, prefixable := true }),
  ("ha".toList, { s := 10 ^ 4, d := AREA_DIMENSIONS }),
  ("b".toList, { s := 1, d := INFO_DIMENSIONS, prefixable := true, binaryPrefixable := true }),
  ("B".toList, { s := 8, d := INFO_DIMENSIONS, prefixable := true, binaryPrefixable := true }),
  ("A".toList, { s := 1, d := ⟨[0, 0, 0, 0, 1, 0, 0, 0], none, 0⟩, prefixable := true }),
  ("C".toList, { s := 1, d := ⟨[0, 0, 1, 0, 1, 0, 0, 0], none, 0⟩, prefixable := true }),
  ("Ah".toList, { s := 3600, d := ⟨[0, 0, 1, 0, 1, 0, 0, 0], none, 0⟩, prefixable := true }),
  ("V".toList, { s := 1, d := ⟨[1, 2, -3, 0, -1, 0, 0, 0], none, 0⟩, prefixable := true }),
  ("ohm".toList, { s := 1, d := ⟨[1, 2, -3, 0, -2, 0, 0, 0], none, 0⟩ }),
  ("F".toList, { s := 1, d := ⟨[-1, -2, 4, 0, 2, 0, 0, 0], none, 0⟩, prefixable := true }),
  ("H".toList, { s := 1, d := ⟨[1, 2, -2, 0, -2, 0, 0, 0], none, 0⟩, prefixable := true }),
  ("S".toList, { s := 1, d := ⟨[-1, -2, 3, 0, 2, 0, 0, 0], none, 0⟩, prefixable := true }),
  ("Wb".toList, { s := 1, d := ⟨[1, 2, -2, 0, -1, 0, 0, 0], none, 0⟩, prefixable := true }),
  ("T".toList, { s := 1, d := ⟨[1, 0, -2, 0, -1, 0, 0, 0], none, 0⟩, prefixable := true }),
  ("mol".toList, { s := 1, d := ⟨[0, 0, 0, 0, 0, 1, 0, 0], none, 0⟩ }),
  ("M".toList, { s := 1000, d := ⟨[0, -3, 0, 0, 0, 1, 0, 0], none, 0⟩ }),
  ("Hz".toList, { s := 1, d := ⟨[0, 0, -1, 0, 0, 0, 0, 0], none, 0⟩, prefixable := true }),
  ("pphpd".toList,
   { s := 1 / 3600,
     d := ⟨[0, 0, -1, 0, 0, 0, 0, 0, -1, 1], some ["dir".toList, "pax".toList], 0⟩ })]

/-- The result of tokenizing one sub-unit, `interface ParsedUnit` in
`units.ts`.  The source field `prefix` is spelled `pfx` here (`prefix` is
unusable as a Lean field name). -/
structure ParsedUnit where
  pfx : Option (List Char)
  unit : List Char
  power : Int
deriving DecidableEq, Repr

/--
Lookup in the unit table seen by `parseSingleUnit`:
`additionalUnits ? { ...builtInUnits, ...additionalUnits } : builtInUnits`.
A caller-supplied entry shadows a built-in one (the additional spread wins),
unlike in `getUnitData` below.
-/
def tblGet (additionalUnits : Option (List (List Char × UnitDef))) (k : List Char) :
    Option UnitDef :=
  match additionalUnits with
  | none => builtInUnits.lookup k
  | some extra => (extra.lookup k).or (builtInUnits.lookup k)

/--
The property names every plain JS object inherits from `Object.prototype`
(ECMAScript): the unit table is an object literal, so the `in` operator used
by the exact-match test of `parseSingleUnit` sees these names as members of
the table even though they are not own keys.
-/
def objectProtoKeys : List (List Char) :=
  ["constructor".toList, "hasOwnProperty".toList, "isPrototypeOf".toList,
   "propertyIsEnumerable".toList, "toLocaleString".toList, "toString".toList,
   "valueOf".toList, "__defineGetter__".toList, "__defineSetter__".toList,
   "__lookupGetter__".toList, "__lookupSetter__".toList, "__proto__".toList]

/--
Membership test `prefixedUnit in units` of `parseSingleUnit`: the JS `in`
operator traverses the prototype chain, so it is true when the name is an
own key of the merged table or a property name inherited from
`Object.prototype`.  (The prefix branches are unaffected by the prototype:
`units[rest]?.prefixable` reads an inherited member as a function without a
`prefixable` / `binaryPrefixable` property, hence falsy off the own keys,
and the prefix-table memberships test names of length at most two, shorter
than any inherited name.)
-/
def jsIn (additionalUnits : Option (List (List Char × UnitDef)))
    (name : List Char) : Bool :=
  (tblGet additionalUnits name).isSome || objectProtoKeys.contains name

/--
The branch cascade of `parseSingleUnit` in `units.ts` after the exponent has
been split off and validated: exact match by the `in` membership (own keys
plus inherited `Object.prototype` names), then `_`-custom unit, then a
one-character prefix on a `prefixable` unit, then a two-character prefix on a
`binaryPrefixable` unit, else the `UnknownUnit` error.  On the empty name
every lookup misses (neither table has an empty key, and the empty string is
not an inherited name) and the `prefixedUnit[0] === "_"` test sees
`undefined`, so the cascade falls through to the error, matching JS.
-/
def resolveUnitName (additionalUnits : Option (List (List Char × UnitDef)))
    (name : List Char) (power : Int) : Except QuantityError ParsedUnit :=
  if jsIn additionalUnits name then
    .ok ⟨none, name, power⟩
  else if name.head? = some '_' then
    .ok ⟨none, name, power⟩
  else
    let firstLetter := name.take 1
    let rest := name.drop 1
    if (prefixes.lookup firstLetter).isSome &&
        ((tblGet additionalUnits rest).map (fun u => u.prefixable)).getD false then
      .ok ⟨some firstLetter, rest, power⟩
    else
      let firstTwo := name.take 2
      let rest2 := name.drop 2
      if (prefixes.lookup firstTwo).isSome &&
          ((tblGet additionalUnits rest2).map (fun u => u.binaryPrefixable)).getD false then
        .ok ⟨some firstTwo, rest2, power⟩
      else .error .unknownUnit

/--
`parseSingleUnit` from `units.ts`: split the token at the first `'^'`, take
power 1 when there is no caret and otherwise `Number(...)` of the suffix,
reject a zero or non-integral (or NaN) power with `InvalidExponent`, then
resolve the remaining name through the cascade above.
-/
def parseSingleUnit (unitStr : List Char)
    (additionalUnits : Option (List (List Char × UnitDef))) :
    Except QuantityError ParsedUnit :=
  let (prefixedUnit, expPart) := splitAtFirstCaret unitStr
  match expPart with
  | none => resolveUnitName additionalUnits prefixedUnit 1
  | some suffix =>
    match jsNumber suffix with
    | none => .error .invalidExponent
    | some q =>
      if q = 0 || q.den ≠ 1 then .error .invalidExponent
      else resolveUnitName additionalUnits prefixedUnit q.num

/--
`parseUnits` from `units.ts`: split on `"/"` (more than two sections is an
`InvalidUnitString` error), trim and split each section on whitespace runs or
`⋅`, parse every token, and negate the power of each denominator entry before
concatenating it after the numerator entries.
-/
def parseUnits (unitStr : List Char)
    (additionalUnits : Option (List (List Char × UnitDef))) :
    Except QuantityError (List ParsedUnit) :=
  match splitOnSlash unitStr with
  | [numeratorStr] =>
    (splitSep (jsTrim numeratorStr)).mapM (fun part => parseSingleUnit part additionalUnits)
  | [numeratorStr, denominatorStr] => do
    let numeratorParts ← (splitSep (jsTrim numeratorStr)).mapM
      (fun part => parseSingleUnit part additionalUnits)
    let denominatorParts ← (splitSep (jsTrim denominatorStr)).mapM
      (fun part => parseSingleUnit part additionalUnits)
    return numeratorParts ++ denominatorParts.map (fun x => { x with power := x.power * -1 })
  | _ => .error .invalidUnitString

/-- The `prefix`-or-empty part of a rendered sub-unit. -/
def pfxStr (u : ParsedUnit) : List Char := (u.pfx).getD []

/--
`toUnitString` from `units.ts`: entries with positive power are rendered into
the numerator (power suffix omitted when the power is 1), the others into the
denominator with the sign dropped (suffix omitted at power -1); the sides are
joined with `⋅` and separated by a single `/`.  When the numerator is empty
but the denominator is not, every entry is instead rendered with its original
signed power explicit.
-/
def toUnitString (units : List ParsedUnit) : List Char :=
  let numerator := units.filterMap fun u =>
    if u.power > 0 then
      some (pfxStr u ++ u.unit ++ (if u.power ≠ 1 then '^' :: intToDigits u.power else []))
    else none
  let denominator := units.filterMap fun u =>
    if u.power > 0 then none
    else
      some (pfxStr u ++ u.unit ++
        (if u.power ≠ -1 then '^' :: intToDigits (u.power * -1) else []))
  if denominator ≠ [] then
    if numerator ≠ [] then
      List.intercalate ['⋅'] numerator ++ '/' :: List.intercalate ['⋅'] denominator
    else
      List.intercalate ['⋅']
        (units.map fun u => pfxStr u ++ u.unit ++ '^' :: intToDigits u.power)
  else List.intercalate ['⋅'] numerator

/--
`getUnitData` from `units.ts`: the built-in table is consulted first and
`additionalUnits` only as a fallback (`builtInUnits[unit] ?? additionalUnits?.[unit]`),
then the `_`-custom shorthand synthesizes a unit of scale 1 with exponent 1
in a custom dimension named by the tail; otherwise `UnknownUnit`.
-/
def getUnitData (unit : List Char)
    (additionalUnits : Option (List (List Char × UnitDef))) :
    Except QuantityError UnitDef :=
  match (builtInUnits.lookup unit).or (additionalUnits.bind fun extra => extra.lookup unit) with
  | some found => .ok found
  | none =>
    if unit.head? = some '_' then
      .ok { s := 1, d := ⟨[0, 0, 0, 0, 0, 0, 0, 0, 1], some [unit.drop 1], 0⟩ }
    else .error .unknownUnit

/-- `c` is not whitespace, `⋅`, `/` or `^`: tokens produced by the unit-string
splitter consist of such characters only. -/
def cleanChar (c : Char) : Bool :=
  !isJsSpace c && c ≠ '⋅' && c ≠ '/' && c ≠ '^'

/-- Pairs of custom dimension names and exponents of a `Dimensions`
(slots 8 and up). -/
def customPairs (d : Dimensions) : List (List Char × Int) :=
  match d.customDimensionNames with
  | none => []
  | some ns => ns.zip (d.dimensions.drop 8)

/-- Modelled from the spec: merging of the custom-dimension slots inside
`combine` (the `Dimensions` composition of the conversion engine, which is
not under `src/`): union of the names in sorted order, summing coexisting
exponents (the right side weighted by `k`) and copying absent ones. -/
def mergeCustomPairsF : Nat → List (List Char × Int) → List (List Char × Int) → Int →
    List (List Char × Int)
  | 0, xs, _, _ => xs
  | _ + 1, xs, [], _ => xs
  | _ + 1, [], ys, k => ys.map fun p => (p.1, k * p.2)
  | fuel + 1, (nx, ex) :: xs, (ny, ey) :: ys, k =>
    if nx = ny then (nx, ex + k * ey) :: mergeCustomPairsF fuel xs ys k
    else if jsStrLt nx ny then (nx, ex) :: mergeCustomPairsF fuel xs ((ny, ey) :: ys) k
    else (ny, k * ey) :: mergeCustomPairsF fuel ((nx, ex) :: xs) ys k

/-- Sorted-union merge of two custom-slot lists (fuel at least the combined
length never runs out; structural recursion keeps it kernel-evaluable). -/
def mergeCustomPairs (xs ys : List (List Char × Int)) (k : Int) : List (List Char × Int) :=
  mergeCustomPairsF (xs.length + ys.length + 1) xs ys k

/-- Modelled from the spec: `combine(lhs, rhs, k)` of §4.1 — add `k·rhs` to
`lhs` element-wise on the basic slots, merge the custom slots, drop custom
slots whose exponent becomes 0, and never compose offsets (a composite unit
carries no affine offset).  The conversion engine applies it with `k` equal
to the sub-unit's power. -/
def combineDims (lhs rhs : Dimensions) (k : Int) : Dimensions :=
  let basics := List.zipWith (fun a b => a + k * b)
    (lhs.dimensions.take numBasicDimensions) (rhs.dimensions.take numBasicDimensions)
  let merged := (mergeCustomPairs (customPairs lhs) (customPairs rhs) k).filter
    fun p => p.2 ≠ 0
  if merged = [] then ⟨basics, none, 0⟩
  else ⟨basics ++ merged.map (fun p => p.2), some (merged.map fun p => p.1), 0⟩

/-- Iterated multiplication on `ℚ` (kernel-reducible `q ^ n`). -/
def qnpow (q : ℚ) : Nat → ℚ
  | 0 => 1
  | n + 1 => q * qnpow q n

/-- The JS exponentiation `f ** power` for an integer power: negative powers
invert (exact rational arithmetic in place of binary doubles). -/
def qpow (q : ℚ) : Int → ℚ
  | .ofNat n => qnpow q n
  | .negSucc n => (qnpow q (n + 1))⁻¹

/-- The multiplicative factor of an optional prefix (1 when absent). -/
def prefixFactor (p : Option (List Char)) : ℚ :=
  match p with
  | none => 1
  | some key => (prefixes.lookup key).getD 1

/-- The `(scale, dimensions, offset)` triple a parsed-unit list reduces to. -/
structure Composite where
  scale : ℚ
  d : Dimensions
  offset : ℚ
deriving DecidableEq, Repr

/-- Modelled from the spec: one step of the composite reduction of §4.5 —
look up the descriptor, compute `f = prefixFactor · u.scale`, multiply the
running scale by `f^power` and combine the dimensions weighted by `power`. -/
def reduceStep (additionalUnits : Option (List (List Char × UnitDef)))
    (acc : Composite) (pu : ParsedUnit) : Except QuantityError Composite := do
  let u ← getUnitData pu.unit additionalUnits
  let f := prefixFactor pu.pfx * u.s
  pure ⟨acc.scale * qpow f pu.power, combineDims acc.d u.d pu.power, acc.offset⟩

/-- Modelled from the spec: the composite reduction of §4.5 (the conversion
engine is not under `src/`).  Starting from scale 1 and `Dimensionless`, fold
`reduceStep` over the list; an offset-bearing unit is only legal as the
solitary sub-unit with power 1, in which case the composite inherits
`offset = u.offset · prefixFactor`, and any other appearance of an
offset-bearing unit is `InvalidOffsetUse`. -/
def reduceUnits (pus : List ParsedUnit)
    (additionalUnits : Option (List (List Char × UnitDef))) :
    Except QuantityError Composite := do
  let base ← pus.foldlM (reduceStep additionalUnits) ⟨1, Dimensionless, 0⟩
  match pus with
  | [single] =>
    let u ← getUnitData single.unit additionalUnits
    match u.offset with
    | some o =>
      if single.power = 1 then pure { base with offset := o * prefixFactor single.pfx }
      else .error .invalidOffsetUse
    | none => pure base
  | _ =>
    let anyOffset ← pus.foldlM
      (fun b pu => do
        let u ← getUnitData pu.unit additionalUnits
        pure (b || u.offset.isSome))
      false
    if anyOffset then .error .invalidOffsetUse else pure base

/--
Modelled from the spec: the end-to-end conversion of a magnitude (the
`Quantity.convert` path; `quantity.ts` is not under `src/`), with the offset
application the repository's own tests pin down.  The unit table stores
affine offsets as SI-base-domain constants (`degC` 273.15, `degF`
255.372…= 459.67·5/9), so a magnitude reduces to base as
`m_base = m·scale + offset` and re-synthesizes as
`m_out = (m_base − offset_out)/scale_out`; this reproduces every temperature
test in `src/unnamed/part_000` (100 degC = 212 degF, 100 degF = 37.78 degC,
0 K = −273.15 degC).  Source and target dimensions must be equal — offsets
play no part in the comparison, both composites carry offset-free
dimensions — else `InvalidConversion`.
-/
def convertMagnitude (m : ℚ) (src tgt : List ParsedUnit)
    (additionalUnits : Option (List (List Char × UnitDef))) :
    Except QuantityError ℚ := do
  let cs ← reduceUnits src additionalUnits
  let ct ← reduceUnits tgt additionalUnits
  if Dimensions.equalTo cs.d ct.d then
    pure ((m * cs.scale + cs.offset - ct.offset) / ct.scale)
  else .error .invalidConversion

/-- The conversion formula exactly as the spec (and claim C1) words it:
`m_out = ((m_in + offset_in) · scale_in) / scale_out − offset_out`, applied
to the same composites.  Kept separate so it can be compared against
`convertMagnitude`. -/
def specConvertMagnitude (m : ℚ) (src tgt : List ParsedUnit)
    (additionalUnits : Option (List (List Char × UnitDef))) :
    Except QuantityError ℚ := do
  let cs ← reduceUnits src additionalUnits
  let ct ← reduceUnits tgt additionalUnits
  if Dimensions.equalTo cs.d ct.d then
    pure ((m + cs.offset) * cs.scale / ct.scale - ct.offset)
  else .error .invalidConversion

/-- Parse both unit strings (built-in table) and convert a magnitude. -/
def convertStr (m : ℚ) (src tgt : List Char) : Except QuantityError ℚ := do
  let su ← parseUnits src none
  let tu ← parseUnits tgt none
  convertMagnitude m su tu none

/-- Parse both unit strings and apply the spec-worded formula. -/
def specConvertStr (m : ℚ) (src tgt : List Char) : Except QuantityError ℚ := do
  let su ← parseUnits src none
  let tu ← parseUnits tgt none
  specConvertMagnitude m su tu none

/-- The conversion succeeded and landed within `tol` of `target` (the
repository's tests compare magnitudes with `assertAlmostEquals`, relative
tolerance `1e-7`). -/
def okWithin (r : Except QuantityError ℚ) (target tol : ℚ) : Bool :=
  match r with
  | .ok w => |w - target| ≤ tol
  | .error _ => false

/-- The metric prefixes: the single-character keys of the prefix table. -/
def metricPrefixes : List (List Char × ℚ) :=
  prefixes.filter fun p => p.1.length = 1

/-- The binary prefixes: the two-character keys of the prefix table. -/
def binaryPrefixes : List (List Char × ℚ) :=
  prefixes.filter fun p => p.1.length = 2

/--
The tokenization order exactly as claim C2 (and spec §4.4) words it: exact
match in the unit table, then a leading `_` custom unit, then a
one-character **metric** prefix followed by a prefixable unit, then a
two-character **binary** prefix followed by a binary-prefixable unit, else
`UnknownUnit`.  Kept separate so it can be compared against
`resolveUnitName`, whose prefix branches consult the undivided prefix
table.
-/
def specResolveOrder (additionalUnits : Option (List (List Char × UnitDef)))
    (name : List Char) (power : Int) : Except QuantityError ParsedUnit :=
  if (tblGet additionalUnits name).isSome then
    .ok ⟨none, name, power⟩
  else if name.head? = some '_' then
    .ok ⟨none, name, power⟩
  else if (metricPrefixes.lookup (name.take 1)).isSome &&
      ((tblGet additionalUnits (name.drop 1)).map (fun u => u.prefixable)).getD false then
    .ok ⟨some (name.take 1), name.drop 1, power⟩
  else if (binaryPrefixes.lookup (name.take 2)).isSome &&
      ((tblGet additionalUnits (name.drop 2)).map (fun u => u.binaryPrefixable)).getD false then
    .ok ⟨some (name.take 2), name.drop 2, power⟩
  else .error .unknownUnit

/--
The cascade exactly as the amended claim C2 words it: exact match by the JS
`in` membership (own keys of the merged table plus the names inherited from
`Object.prototype`), then a leading `_` custom unit, then a one-character
**metric** prefix on a prefixable unit, then a two-character **binary**
prefix on a binary-prefixable unit, else `UnknownUnit`.  Kept separate so it
can be compared against `resolveUnitName`.
-/
def specResolveOrderAmended (additionalUnits : Option (List (List Char × UnitDef)))
    (name : List Char) (power : Int) : Except QuantityError ParsedUnit :=
  if jsIn additionalUnits name then
    .ok ⟨none, name, power⟩
  else if name.head? = some '_' then
    .ok ⟨none, name, power⟩
  else if (metricPrefixes.lookup (name.take 1)).isSome &&
      ((tblGet additionalUnits (name.drop 1)).map (fun u => u.prefixable)).getD false then
    .ok ⟨some (name.take 1), name.drop 1, power⟩
  else if (binaryPrefixes.lookup (name.take 2)).isSome &&
      ((tblGet additionalUnits (name.drop 2)).map (fun u => u.binaryPrefixable)).getD false then
    .ok ⟨some (name.take 2), name.drop 2, power⟩
  else .error .unknownUnit

/--
The formatter exactly as claim C9 words it: partition the entries by sign of
power, render each entry as `prefix ++ unit ++ ("^" ++ |power|` when
`|power| ≠ 1)`, join each side with `⋅`, and join a non-empty numerator and
a non-empty denominator with a single `/`.  Kept separate so it can be
compared against `toUnitString`.
-/
def specRenderC9 (units : List ParsedUnit) : List Char :=
  let render := fun (u : ParsedUnit) =>
    pfxStr u ++ u.unit ++
      (if u.power.natAbs ≠ 1 then '^' :: natDigits u.power.natAbs else [])
  let numerator := (units.filter fun u => u.power > 0).map render
  let denominator := (units.filter fun u => u.power < 0).map render
  if numerator ≠ [] && denominator ≠ [] then
    List.intercalate ['⋅'] numerator ++ '/' :: List.intercalate ['⋅'] denominator
  else List.intercalate ['⋅'] (numerator ++ denominator)

/--
The formatter as amended: like `specRenderC9` with the exponent suffix
`'^' ++ |power|` emitted exactly when `|power| ≠ 1`, except that a list
whose entries all have non-positive power is rendered entry by entry with
the original signed power explicit and no `/`.
-/
def amendedRender (units : List ParsedUnit) : List Char :=
  let renderAbs := fun (u : ParsedUnit) =>
    pfxStr u ++ u.unit ++
      (if u.power.natAbs ≠ 1 then '^' :: natDigits u.power.natAbs else [])
  let numerator := (units.filter fun u => u.power > 0).map renderAbs
  let denominator := (units.filter fun u => !(u.power > 0)).map renderAbs
  if numerator = [] && denominator ≠ [] then
    List.intercalate ['⋅'] (units.map fun u => pfxStr u ++ u.unit ++ '^' :: intToDigits u.power)
  else if denominator = [] then
    List.intercalate ['⋅'] numerator
  else
    List.intercalate ['⋅'] numerator ++ '/' :: List.intercalate ['⋅'] denominator

/-! ## Theorems -/

/--
C4 (counterexample): parsing the empty unit string does **not** succeed with
the empty parsed-unit list.  `"".split("/")` gives one empty section, whose
(trimmed, separator-split) token list is the single empty token, and
`parseSingleUnit("")` falls through every branch to the `UnknownUnit` error.
-/
theorem c4_empty_string_counterexample :
    ¬ (parseUnits [] none = Except.ok []) := by decide

/--
C4 (amended): parsing the empty unit string fails with `UnknownUnit` (the
empty numerator token matches nothing); it is the empty parsed-unit *list* —
which the `Quantity` layer substitutes without calling the parser — that
denotes the dimensionless unit, as its composite reduction shows.
-/
theorem c4_empty_string_amended :
    parseUnits [] none = Except.error QuantityError.unknownUnit ∧
      reduceUnits [] none = Except.ok ⟨1, Dimensionless, 0⟩ := by decide

/--
C10: for every unit symbol present in the built-in table, `getUnitData`
returns the built-in descriptor whatever `additionalUnits` says: the lookup
is `builtInUnits[unit] ?? additionalUnits?.[unit]`, so a caller-supplied
definition can never shadow a built-in name there.
-/
theorem c10_getUnitData_builtin_wins (unit : List Char) (u : UnitDef)
    (extra : Option (List (List Char × UnitDef)))
    (h : builtInUnits.lookup unit = some u) :
    getUnitData unit extra = Except.ok u := by
  simp [getUnitData, h, Option.or]

/-- C10 witness: `additionalUnits` redefining `"m"` with scale 9 is ignored;
the built-in metre descriptor is returned. -/
theorem c10_getUnitData_builtin_wins_witness :
    getUnitData "m".toList (some [("m".toList, { s := 9, d := MASS_DIMENSION })]) =
      Except.ok { s := 1, d := DIST_DIMENSION, prefixable := true } :=
  c10_getUnitData_builtin_wins _ _ _ (by decide)

/-- An indexed `every`-style comparison (the shape `equalTo` uses) together
with a length equality forces list equality, and conversely. -/
theorem enum_all_getElem_iff {α : Type} (l m : List α) (hlen : l.length = m.length) :
    (∀ x ∈ l.enum, m[x.1]? = some x.2) ↔ l = m := by
  rw [List.forall_mem_enum]
  constructor
  · intro h
    apply List.ext_getElem?
    intro n
    by_cases hn : n < l.length
    · rw [h n hn, List.getElem?_eq_getElem hn]
    · rw [List.getElem?_eq_none (by omega), List.getElem?_eq_none (by omega)]
  · rintro rfl
    intro i hi
    exact List.getElem?_eq_getElem hi

/--
C8: `Dimensions.equalTo` is true exactly when the exponent vectors are
element-wise equal, the custom-name lists are equal (as optional lists:
absent and present-but-empty are distinguished, and both sides agree), and
the offsets are equal.
-/
theorem c8_equalTo_iff (a b : Dimensions) :
    Dimensions.equalTo a b = true ↔
      a.dimensions = b.dimensions ∧ a.customDimensionNames = b.customDimensionNames ∧
        a.offset = b.offset := by
  unfold Dimensions.equalTo
  simp only [Bool.and_eq_true, decide_eq_true_eq, List.all_eq_true]
  constructor
  · rintro ⟨⟨⟨⟨hoff, hlen⟩, hall⟩, hnamelen⟩, hnames⟩
    refine ⟨(enum_all_getElem_iff _ _ hlen).mp hall, ?_, hoff.symm⟩
    match ha : a.customDimensionNames, hb : b.customDimensionNames with
    | none, none => rfl
    | none, some m => simp [ha, hb] at hnamelen
    | some l, none => simp [ha, hb] at hnamelen
    | some l, some m =>
      simp only [ha, hb, Option.map_some', Option.some.injEq] at hnamelen
      simp only [ha, hb, Option.some_bind, List.all_eq_true, decide_eq_true_eq] at hnames
      exact congrArg some ((enum_all_getElem_iff _ _ hnamelen).mp hnames)
  · rintro ⟨hd, hn, ho⟩
    refine ⟨⟨⟨⟨ho.symm, by rw [hd]⟩, ?_⟩, by rw [hn]⟩, ?_⟩
    · rw [hd]
      exact (enum_all_getElem_iff b.dimensions b.dimensions rfl).mpr rfl
    · match ha : a.customDimensionNames with
      | none => simp [ha]
      | some l =>
        rw [ha] at hn
        simp only [ha, ← hn, Option.some_bind, List.all_eq_true, decide_eq_true_eq]
        exact (enum_all_getElem_iff l l rfl).mpr rfl

/-- Filtering an association list by a key predicate the sought key
satisfies does not change the lookup result. -/
theorem lookup_filter_of_pred {β : Type} (l : List (List Char × β)) (pred : List Char → Bool)
    (k : List Char) (hk : pred k = true) :
    List.lookup k (l.filter fun p => pred p.1) = List.lookup k l := by
  induction l with
  | nil => rfl
  | cons e t ih =>
    obtain ⟨ek, ev⟩ := e
    by_cases he : pred ek = true
    · rw [List.filter_cons_of_pos (by simpa using he), List.lookup_cons, List.lookup_cons]
      cases hbeq : (k == ek) with
      | true => rfl
      | false => exact ih
    · have hbeq : (k == ek) = false := by
        by_contra hcon
        rw [Bool.not_eq_false, beq_iff_eq] at hcon
        rw [← hcon] at he
        exact he hk
      rw [List.filter_cons_of_neg (by simpa using he), List.lookup_cons, hbeq]
      exact ih

/-- A key that no entry carries looks up to `none`. -/
theorem lookup_none_of_keys_ne {β : Type} (l : List (List Char × β)) (k : List Char)
    (h : ∀ e ∈ l, e.1 ≠ k) : List.lookup k l = none := by
  induction l with
  | nil => rfl
  | cons e t ih =>
    obtain ⟨ek, ev⟩ := e
    have hbeq : (k == ek) = false := by
      by_contra hcon
      rw [Bool.not_eq_false, beq_iff_eq] at hcon
      exact h (ek, ev) (List.mem_cons_self _ _) hcon.symm
    rw [List.lookup_cons, hbeq]
    exact ih fun e he => h e (List.mem_cons_of_mem _ he)

/-- The empty token names no unit: neither table has an empty key. -/
theorem tblGet_empty_none (extra : Option (List (List Char × UnitDef)))
    (hkeys : ∀ e ∈ extra.getD [], e.1 ≠ ([] : List Char)) :
    tblGet extra [] = none := by
  match extra with
  | none => decide
  | some ex =>
    show (ex.lookup []).or (builtInUnits.lookup []) = none
    rw [lookup_none_of_keys_ne ex [] hkeys]
    decide

/--
C2 (counterexample): the claim's fallback clause fails on tokens named after
`Object.prototype` members.  The token `toString` is no own key of the unit
table, and no rule of the claimed cascade applies (the claim-worded cascade
returns `UnknownUnit`), yet the source's exact-match test
`prefixedUnit in units` sees the inherited `Object.prototype.toString`, so
the parser accepts the token as a prefix-free unit named `toString` with
power one.
-/
theorem c2_tokenization_order_counterexample :
    builtInUnits.lookup "toString".toList = none ∧
      specResolveOrder none "toString".toList 1 = .error .unknownUnit ∧
      resolveUnitName none "toString".toList 1 = .ok ⟨none, "toString".toList, 1⟩ ∧
      parseSingleUnit "toString".toList none = .ok ⟨none, "toString".toList, 1⟩ :=
  ⟨by decide, by decide, by decide, by decide⟩

/--
C2 (amended): for every single-unit token name, the tokenizer tries, in this
order, the JS `in` membership on the (merged) unit table — own keys plus the
names inherited from `Object.prototype`, the latter accepted as prefix-free
exact matches — then a leading `_` custom unit, a **one-character metric**
prefix on a prefixable unit, and a **two-character binary** prefix on a
binary-prefixable unit, failing with `UnknownUnit` otherwise — so an exact
match always wins over prefix decomposition.  The first conjunct identifies
the source cascade (whose prefix branches consult the undivided prefix
table) with the amended-claim-worded cascade over the metric-only and
binary-only tables; the remaining conjuncts pin the classification: the
one-character prefix keys are exactly the metric ones and the two-character
keys exactly `Ki…Yi`, and no other key length occurs.  The `additionalUnits`
map is only assumed not to define a unit with an empty name (an empty-named
binary-prefixable unit would let the two-character branch fire on a bare
metric prefix character).
-/
theorem c2_tokenization_order_amended (extra : Option (List (List Char × UnitDef)))
    (hkeys : ∀ e ∈ extra.getD [], e.1 ≠ ([] : List Char))
    (name : List Char) (power : Int) :
    resolveUnitName extra name power = specResolveOrderAmended extra name power ∧
      metricPrefixes.map Prod.fst =
        ["q".toList, "r".toList, "y".toList, "z".toList, "a".toList, "f".toList,
         "p".toList, "n".toList, "u".toList, "µ".toList, "m".toList, "c".toList,
         "d".toList, "h".toList, "k".toList, "M".toList, "G".toList, "T".toList,
         "P".toList, "E".toList, "Z".toList, "Y".toList, "R".toList, "Q".toList] ∧
      binaryPrefixes.map Prod.fst =
        ["Ki".toList, "Mi".toList, "Gi".toList, "Ti".toList,
         "Pi".toList, "Ei".toList, "Zi".toList, "Yi".toList] ∧
      (∀ e ∈ prefixes, e.1.length = 1 ∨ e.1.length = 2) := by
  refine ⟨?_, by decide, by decide, by decide⟩
  unfold resolveUnitName specResolveOrderAmended
  rcases name with - | ⟨c1, - | ⟨c2, rest⟩⟩
  · simp only [List.take_nil, List.drop_nil]
    have h0 : jsIn extra [] = false := by
      unfold jsIn
      rw [tblGet_empty_none extra hkeys]
      decide
    have hp : (prefixes.lookup ([] : List Char)) = none := by decide
    have hm : (metricPrefixes.lookup ([] : List Char)) = none := by decide
    have hb2 : (binaryPrefixes.lookup ([] : List Char)) = none := by decide
    simp [h0, hp, hm, hb2]
  · have h1 : (tblGet extra ([] : List Char)) = none := tblGet_empty_none extra hkeys
    have hmetric : metricPrefixes.lookup [c1] = prefixes.lookup [c1] :=
      lookup_filter_of_pred prefixes (fun k => decide (k.length = 1)) [c1] rfl
    have hblen : ∀ e ∈ binaryPrefixes, e.1.length = 2 := by decide
    have hbinnone : binaryPrefixes.lookup [c1] = none := by
      refine lookup_none_of_keys_ne _ _ fun e he heq => ?_
      have h2 := hblen e he
      rw [heq] at h2
      simp at h2
    simp [hmetric, hbinnone, h1]
  · have hmetric : metricPrefixes.lookup ((c1 :: c2 :: rest).take 1) =
        prefixes.lookup ((c1 :: c2 :: rest).take 1) :=
      lookup_filter_of_pred prefixes (fun k => decide (k.length = 1))
        ((c1 :: c2 :: rest).take 1) rfl
    have hbinary : binaryPrefixes.lookup ((c1 :: c2 :: rest).take 2) =
        prefixes.lookup ((c1 :: c2 :: rest).take 2) :=
      lookup_filter_of_pred prefixes (fun k => decide (k.length = 2))
        ((c1 :: c2 :: rest).take 2) rfl
    rw [hmetric, hbinary]

/-- C2 witness: with a (harmlessly keyed) additional unit in scope, the
token `km` resolves identically through the source cascade and the
amended-claim-worded cascade. -/
theorem c2_tokenization_order_amended_witness :
    resolveUnitName (some [("zz".toList, { s := 2, d := MASS_DIMENSION })]) "km".toList 1 =
      specResolveOrderAmended
        (some [("zz".toList, { s := 2, d := MASS_DIMENSION })]) "km".toList 1 :=
  (c2_tokenization_order_amended _ (by decide) _ 1).1

/-- The JS string order is irreflexive. -/
theorem jsStrLt_irrefl (a : List Char) : jsStrLt a a = false := by
  induction a with
  | nil => rfl
  | cons c t ih => simp [jsStrLt, ih]

/-- The JS string order is transitive. -/
theorem jsStrLt_trans (a b c : List Char) (hab : jsStrLt a b = true)
    (hbc : jsStrLt b c = true) : jsStrLt a c = true := by
  induction a generalizing b c with
  | nil =>
    cases b with
    | nil => simp [jsStrLt] at hab
    | cons bh bt =>
      cases c with
      | nil => simp [jsStrLt] at hbc
      | cons ch ct => rfl
  | cons ah at' ih =>
    cases b with
    | nil => simp [jsStrLt] at hab
    | cons bh bt =>
      cases c with
      | nil => simp [jsStrLt] at hbc
      | cons ch ct =>
        unfold jsStrLt at hab hbc ⊢
        by_cases h1 : ah = bh
        · subst h1
          by_cases h2 : ah = ch
          · subst h2
            rw [if_pos rfl] at hab hbc ⊢
            exact ih bt ct hab hbc
          · rw [if_pos rfl] at hab
            rw [if_neg h2] at hbc ⊢
            exact hbc
        · rw [if_neg h1] at hab
          by_cases h2 : bh = ch
          · subst h2
            rw [if_neg h1]
            exact hab
          · rw [if_neg h2] at hbc
            have hlt : ah.toNat < ch.toNat :=
              Nat.lt_trans (of_decide_eq_true hab) (of_decide_eq_true hbc)
            have hne : ah ≠ ch := by
              intro heq
              rw [heq] at hlt
              exact Nat.lt_irrefl _ hlt
            rw [if_neg hne]
            exact decide_eq_true hlt

/-- Normal form of the `Dimensions` constructor: success exactly under the
three runtime checks, every failure being the `InvalidDimensions` kind. -/
theorem mkDimensions_eq (dims : List Int) (names : Option (List (List Char))) (off : ℚ) :
    mkDimensions dims names off =
      (if numBasicDimensions ≤ dims.length ∧
          dims.length = numBasicDimensions + (names.map List.length).getD 0 ∧
          (names.getD []).Chain' (fun a b => jsStrLt a b = true)
       then .ok ⟨dims, names, off⟩ else .error .invalidDimensions) := by
  unfold mkDimensions
  cases names with
  | none =>
    by_cases h1 : dims.length < numBasicDimensions
    · rw [if_pos h1, if_neg (by push_neg; intro ha; omega)]
    · rw [if_neg h1]
      by_cases h2 : dims.length ≠
          numBasicDimensions + (((none : Option (List (List Char))).map List.length).getD 0)
      · rw [if_pos h2, if_neg (by push_neg; intro _ hb; exact absurd hb h2)]
      · rw [if_neg h2, if_pos ⟨by omega, by omega, List.chain'_nil⟩]
  | some l =>
    by_cases h1 : dims.length < numBasicDimensions
    · rw [if_pos h1, if_neg (by push_neg; intro ha; omega)]
    · rw [if_neg h1]
      by_cases h2 : dims.length ≠
          numBasicDimensions + (((some l : Option (List (List Char))).map List.length).getD 0)
      · rw [if_pos h2, if_neg (by push_neg; intro _ hb; exact absurd hb h2)]
      · rw [if_neg h2]
        show (if l.Chain' (fun a b => jsStrLt a b = true) then
            (Except.ok ⟨dims, some l, off⟩ : Except QuantityError Dimensions)
          else .error .invalidDimensions) = _
        by_cases hc : l.Chain' (fun a b => jsStrLt a b = true)
        · rw [if_pos hc, if_pos ⟨by omega, by omega, hc⟩]
        · rw [if_neg hc, if_neg (by rintro ⟨-, -, hcc⟩; exact hc hcc)]

/--
C7: constructing a `Dimensions` succeeds exactly when the exponent vector has
length 8 to 12 equal to 8 plus the number of custom names, and the custom
names are sorted strictly ascending (hence duplicate-free) under the JS
string order; any violation fails with `InvalidDimensions`.  The TypeScript
tuple types bound the custom names at 4 statically, which is taken as the
hypothesis here (the constructor itself checks adjacent pairs only; strict
global sortedness is equivalent by transitivity of the string order).
-/
theorem c7_mkDimensions_iff (dims : List Int) (names : Option (List (List Char))) (off : ℚ)
    (hbound : (names.map List.length).getD 0 ≤ 4) :
    ((mkDimensions dims names off).isOk = true ↔
      (8 ≤ dims.length ∧ dims.length ≤ 12 ∧
        dims.length = 8 + (names.map List.length).getD 0 ∧
        (names.getD []).Pairwise (fun a b => jsStrLt a b = true) ∧
        (names.getD []).Nodup)) ∧
    (∀ e, mkDimensions dims names off = .error e → e = QuantityError.invalidDimensions) := by
  haveI : IsTrans (List Char) (fun a b => jsStrLt a b = true) :=
    ⟨fun a b c => jsStrLt_trans a b c⟩
  have hchain : ∀ l : List (List Char),
      l.Chain' (fun a b => jsStrLt a b = true) ↔
        (l.Pairwise (fun a b => jsStrLt a b = true) ∧ l.Nodup) := by
    intro l
    rw [List.chain'_iff_pairwise]
    constructor
    · intro hp
      refine ⟨hp, ?_⟩
      refine List.Pairwise.imp ?_ hp
      intro a b hlt heq
      rw [heq, jsStrLt_irrefl] at hlt
      cases hlt
    · exact fun h => h.1
  have h8 : numBasicDimensions = 8 := rfl
  rw [mkDimensions_eq]
  by_cases hcond : numBasicDimensions ≤ dims.length ∧
      dims.length = numBasicDimensions + (names.map List.length).getD 0 ∧
      (names.getD []).Chain' (fun a b => jsStrLt a b = true)
  · rw [if_pos hcond]
    obtain ⟨ha, hb, hcc⟩ := hcond
    rw [h8] at ha hb
    constructor
    · constructor
      · intro _
        exact ⟨ha, by omega, hb, ((hchain _).mp hcc).1, ((hchain _).mp hcc).2⟩
      · intro _
        rfl
    · intro e he
      cases he
  · rw [if_neg hcond]
    constructor
    · constructor
      · intro h
        exact absurd h (by decide)
      · rintro ⟨ha, -, hb, hpw, hnd⟩
        exact absurd ⟨by omega, by omega, (hchain _).mpr ⟨hpw, hnd⟩⟩ hcond
    · intro e he
      cases he
      rfl

/-- C7 witness: the `pphpd` shape — a 10-entry vector with custom names
`dir < pax` — is accepted. -/
theorem c7_mkDimensions_iff_witness :
    (mkDimensions [0, 0, -1, 0, 0, 0, 0, 0, -1, 1]
      (some ["dir".toList, "pax".toList]) 0).isOk = true :=
  ((c7_mkDimensions_iff [0, 0, -1, 0, 0, 0, 0, 0, -1, 1]
      (some ["dir".toList, "pax".toList]) 0 (by decide)).1).mpr (by decide)

/-- A caret-free token splits into itself with no exponent suffix. -/
theorem splitAtFirstCaret_no_caret (l : List Char) (h : '^' ∉ l) :
    splitAtFirstCaret l = (l, none) := by
  induction l with
  | nil => rfl
  | cons c t ih =>
    have hc : ¬(c = '^') := fun he => h (by rw [he]; exact List.mem_cons_self _ _)
    unfold splitAtFirstCaret
    rw [if_neg hc, ih fun hm => h (List.mem_cons_of_mem _ hm)]

/-- Splitting at the first caret of `pre ++ "^" ++ suf` with `pre`
caret-free yields `(pre, suf)`. -/
theorem splitAtFirstCaret_append (pre suf : List Char) (h : '^' ∉ pre) :
    splitAtFirstCaret (pre ++ '^' :: suf) = (pre, some suf) := by
  induction pre with
  | nil => simp [splitAtFirstCaret]
  | cons c t ih =>
    have hc : ¬(c = '^') := fun he => h (by rw [he]; exact List.mem_cons_self _ _)
    rw [List.cons_append]
    unfold splitAtFirstCaret
    rw [if_neg hc, ih fun hm => h (List.mem_cons_of_mem _ hm)]

/-- The name-resolution cascade never reports an exponent problem. -/
theorem resolveUnitName_ne_invalidExponent
    (extra : Option (List (List Char × UnitDef))) (name : List Char) (p : Int) :
    resolveUnitName extra name p ≠ .error .invalidExponent := by
  simp only [resolveUnitName]
  split_ifs <;> simp

/-- The power an `ok` resolution carries is the power passed in. -/
theorem resolveUnitName_ok_power
    (extra : Option (List (List Char × UnitDef))) (name : List Char) (p : Int)
    (pu : ParsedUnit) (h : resolveUnitName extra name p = .ok pu) : pu.power = p := by
  simp only [resolveUnitName] at h
  split_ifs at h <;> (injection h with h2; rw [← h2])

/--
C6: for a single-unit token carrying a `'^'` suffix, parsing fails with
`InvalidExponent` exactly when the suffix does not denote a nonzero integer
under the JS `Number` semantics (so exponent `0`, non-integer exponents and
unparseable suffixes all fail), and a token without `'^'` that parses gets
power 1.
-/
theorem c6_exponent_validation (extra : Option (List (List Char × UnitDef)))
    (pre suf tok : List Char) (hpre : '^' ∉ pre) (htok : '^' ∉ tok) :
    (parseSingleUnit (pre ++ '^' :: suf) extra = .error .invalidExponent ↔
      ¬ ∃ n : Int, n ≠ 0 ∧ jsNumber suf = some (n : ℚ)) ∧
    (∀ pu, parseSingleUnit tok extra = .ok pu → pu.power = 1) := by
  constructor
  · have hps : parseSingleUnit (pre ++ '^' :: suf) extra =
        (match jsNumber suf with
         | none => .error .invalidExponent
         | some q =>
           if q = 0 || q.den ≠ 1 then .error .invalidExponent
           else resolveUnitName extra pre q.num) := by
      unfold parseSingleUnit
      rw [splitAtFirstCaret_append pre suf hpre]
    rw [hps]
    cases hq : jsNumber suf with
    | none =>
      constructor
      · rintro - ⟨n, -, hn⟩
        cases hn
      · intro _
        rfl
    | some q =>
      show ((if (decide (q = 0) || decide (q.den ≠ 1)) = true
          then (Except.error QuantityError.invalidExponent : Except QuantityError ParsedUnit)
          else resolveUnitName extra pre q.num) = Except.error QuantityError.invalidExponent) ↔ _
      by_cases hzero : (decide (q = 0) || decide (q.den ≠ 1)) = true
      · rw [if_pos hzero]
        constructor
        · rintro - ⟨n, hn0, hn⟩
          have hqn : q = (n : ℚ) := Option.some.inj hn
          rcases Bool.or_eq_true_iff.mp hzero with h0 | hden
          · rw [decide_eq_true_eq] at h0
            rw [h0] at hqn
            exact hn0 (by exact_mod_cast hqn.symm)
          · rw [decide_eq_true_eq] at hden
            rw [hqn] at hden
            exact hden (Rat.intCast_den n)
        · intro _
          rfl
      · rw [if_neg hzero]
        rw [Bool.or_eq_true_iff, not_or, decide_eq_true_eq, decide_eq_true_eq,
          Decidable.not_not] at hzero
        obtain ⟨hq0, hden⟩ := hzero
        constructor
        · intro h
          exact absurd h (resolveUnitName_ne_invalidExponent extra pre q.num)
        · intro hno
          exfalso
          refine hno ⟨q.num, ?_, ?_⟩
          · intro hnum
            exact hq0 (by rw [← Rat.num_div_den q, hnum, hden]; simp)
          · congr 1
            rw [← Rat.num_div_den q, hden]
            simp
  · intro pu h
    unfold parseSingleUnit at h
    rw [splitAtFirstCaret_no_caret tok htok] at h
    exact resolveUnitName_ok_power extra tok 1 pu h

/-- C6 witness: `m^0` is rejected with `InvalidExponent`, and the bare token
`m` parses with power 1. -/
theorem c6_exponent_validation_witness :
    parseSingleUnit "m^0".toList none = .error .invalidExponent ∧
      (∀ pu, parseSingleUnit "m".toList none = .ok pu → pu.power = 1) := by
  have hmain := c6_exponent_validation none "m".toList "0".toList "m".toList
    (by decide) (by decide)
  constructor
  · refine hmain.1.mpr ?_
    rintro ⟨n, hn0, hn⟩
    have h0 : jsNumber "0".toList = some 0 := by decide
    rw [h0] at hn
    have : ((n : ℚ)) = 0 := (Option.some.inj hn).symm
    exact hn0 (by exact_mod_cast this)
  · exact hmain.2

/-- `intercalate` on a single chunk. -/
theorem intercalate_singleton {α : Type} (sep x : List α) :
    List.intercalate sep [x] = x := by
  simp [List.intercalate, List.intersperse]

/-- `intercalate` peels one chunk and one separator. -/
theorem intercalate_cons_cons {α : Type} (sep x y : List α) (rest : List (List α)) :
    List.intercalate sep (x :: y :: rest) = x ++ sep ++ List.intercalate sep (y :: rest) := by
  simp [List.intercalate, List.intersperse]

/-- Every character of an `intercalate` comes from the separator or a chunk. -/
theorem mem_intercalate {α : Type} (sep : List α) (xs : List (List α)) (c : α)
    (h : c ∈ List.intercalate sep xs) : c ∈ sep ∨ ∃ x ∈ xs, c ∈ x := by
  induction xs with
  | nil => cases h
  | cons x rest ih =>
    cases rest with
    | nil =>
      rw [intercalate_singleton] at h
      exact Or.inr ⟨x, List.mem_cons_self _ _, h⟩
    | cons y t =>
      rw [intercalate_cons_cons] at h
      rcases List.mem_append.mp h with h1 | h2
      · rcases List.mem_append.mp h1 with ha | hs
        · exact Or.inr ⟨x, List.mem_cons_self _ _, ha⟩
        · exact Or.inl hs
      · rcases ih h2 with hs | ⟨x', hx', hc⟩
        · exact Or.inl hs
        · exact Or.inr ⟨x', List.mem_cons_of_mem _ hx', hc⟩

/-- The digits emitted by `natDigits` are decimal digit characters. -/
theorem natDigits_mem_digits (n : Nat) : ∀ c ∈ natDigits n, c ∈ "0123456789".toList := by
  induction n using Nat.strong_induction_on with
  | _ n ih =>
    rw [natDigits_eq]
    by_cases h : n < 10
    · rw [if_pos h]
      intro c hc
      rw [List.mem_singleton] at hc
      subst hc
      interval_cases n <;> decide
    · rw [if_neg h]
      intro c hc
      rcases List.mem_append.mp hc with h1 | h2
      · exact ih (n / 10) (Nat.div_lt_self (by omega) (by omega)) c h1
      · rw [List.mem_singleton] at h2
        subst h2
        have hm : n % 10 < 10 := Nat.mod_lt _ (by omega)
        generalize n % 10 = d at hm
        interval_cases d <;> decide

/-- Decimal digit characters are clean: not whitespace nor any of the
formatter's separator characters. -/
theorem digit_chars_clean :
    ∀ c ∈ "0123456789".toList, isJsSpace c = false ∧ cleanChar c = true := by decide

/-- Characters of a rendered integer are clean (digits and `'-'`). -/
theorem intToDigits_clean (p : Int) :
    ∀ c ∈ intToDigits p, isJsSpace c = false ∧ cleanChar c = true := by
  intro c hc
  unfold intToDigits at hc
  by_cases h : p < 0
  · rw [if_pos h] at hc
    rcases List.mem_cons.mp hc with rfl | hd
    · exact ⟨by decide, by decide⟩
    · exact digit_chars_clean c (natDigits_mem_digits _ c hd)
  · rw [if_neg h] at hc
    exact digit_chars_clean c (natDigits_mem_digits _ c hc)

/-- A `filterMap` that keeps exactly the entries satisfying `p` is a
`filter` followed by a `map`. -/
theorem filterMap_if_eq_filter_map {α β : Type} (p : α → Prop) [DecidablePred p]
    (f : α → β) (l : List α) :
    (l.filterMap fun u => if p u then some (f u) else none) =
      (l.filter fun u => decide (p u)).map f := by
  induction l with
  | nil => rfl
  | cons a t ih =>
    by_cases h : p a <;> simp [List.filterMap_cons, List.filter_cons, h, ih]

/-- A `filterMap` that drops exactly the entries satisfying `p` is a
`filter` of the complement followed by a `map`. -/
theorem filterMap_ifnot_eq_filter_map {α β : Type} (p : α → Prop) [DecidablePred p]
    (f : α → β) (l : List α) :
    (l.filterMap fun u => if p u then none else some (f u)) =
      (l.filter fun u => !(decide (p u))).map f := by
  induction l with
  | nil => rfl
  | cons a t ih =>
    by_cases h : p a <;> simp [List.filterMap_cons, List.filter_cons, h, ih]

/-- The common assembly step of the formatter and its amended description. -/
theorem formatter_assembly (num den : List (List Char)) (special : List Char) :
    (if den ≠ [] then
        (if num ≠ [] then
          List.intercalate ['⋅'] num ++ '/' :: List.intercalate ['⋅'] den
         else special)
      else List.intercalate ['⋅'] num) =
    (if num = [] && den ≠ [] then special
     else if den = [] then List.intercalate ['⋅'] num
     else List.intercalate ['⋅'] num ++ '/' :: List.intercalate ['⋅'] den) := by
  by_cases hd : den = [] <;> by_cases hn : num = [] <;> simp [hd, hn]

/--
C9 (counterexample): the claim's rendering rule fails on a pure-denominator
list, and the output can contain the character pair `^1`.  `toUnitString`
renders `[s^-1]` as `"s^-1"` — with a caret and the signed power — where the
claimed rule (`'^' ++ |power|` only when `|power| ≠ 1`, numerator and
denominator joined by `/`) yields `"s"`; and rendering `[m^10]` produces
`"m^10"`, which contains the substring `"^1"`.
-/
theorem c9_formatter_counterexample :
    toUnitString [⟨none, "s".toList, -1⟩] = "s^-1".toList ∧
      specRenderC9 [⟨none, "s".toList, -1⟩] = "s".toList ∧
      ¬ (toUnitString [⟨none, "s".toList, -1⟩] = specRenderC9 [⟨none, "s".toList, -1⟩]) ∧
      List.IsInfix ("^1".toList) (toUnitString [⟨none, "m".toList, 10⟩]) := by decide

/--
C9 (amended): `toUnitString` partitions entries by sign of power (positive
to the numerator, the rest to the denominator), renders each entry as
`prefix ++ unit ++ ('^' ++ |power|)` with the exponent suffix emitted
exactly when `|power| ≠ 1`, joins each side with `⋅` and the two sides with
a single `/` — except that a list with no positive power is rendered entry
by entry with its original signed power explicit and no `/`.  On unit names
and prefixes free of whitespace the output contains no whitespace.
-/
theorem c9_formatter_amended (l : List ParsedUnit)
    (hclean : ∀ u ∈ l, ∀ ch ∈ pfxStr u ++ u.unit, isJsSpace ch = false) :
    toUnitString l = amendedRender l ∧
      ∀ ch ∈ toUnitString l, isJsSpace ch = false := by
  have hpos : ∀ u : ParsedUnit, u.power > 0 →
      pfxStr u ++ u.unit ++ (if u.power ≠ 1 then '^' :: intToDigits u.power else []) =
        pfxStr u ++ u.unit ++
          (if u.power.natAbs ≠ 1 then '^' :: natDigits u.power.natAbs else []) := by
    intro u hu
    by_cases h : u.power = 1
    · rw [if_neg fun hc => hc h, if_neg fun hc => hc (by rw [h]; rfl)]
    · rw [if_pos h, if_pos fun hab => h (by omega)]
      have : intToDigits u.power = natDigits u.power.natAbs := by
        unfold intToDigits
        rw [if_neg (by omega)]
      rw [this]
  have hden : ∀ u : ParsedUnit, ¬(u.power > 0) →
      pfxStr u ++ u.unit ++
          (if u.power ≠ -1 then '^' :: intToDigits (u.power * -1) else []) =
        pfxStr u ++ u.unit ++
          (if u.power.natAbs ≠ 1 then '^' :: natDigits u.power.natAbs else []) := by
    intro u hu
    by_cases h : u.power = -1
    · rw [if_neg fun hc => hc h, if_neg fun hc => hc (by rw [h]; rfl)]
    · rw [if_pos h, if_pos fun hab => h (by omega)]
      have : intToDigits (u.power * -1) = natDigits u.power.natAbs := by
        unfold intToDigits
        rw [if_neg (by omega)]
        congr 1
        omega
      rw [this]
  constructor
  · unfold toUnitString amendedRender
    rw [filterMap_if_eq_filter_map (fun u : ParsedUnit => u.power > 0)
        (fun u => pfxStr u ++ u.unit ++ (if u.power ≠ 1 then '^' :: intToDigits u.power else []))
        l,
      filterMap_ifnot_eq_filter_map (fun u : ParsedUnit => u.power > 0)
        (fun u => pfxStr u ++ u.unit ++
          (if u.power ≠ -1 then '^' :: intToDigits (u.power * -1) else []))
        l]
    rw [List.map_congr_left fun u hu => hpos u (of_decide_eq_true (List.mem_filter.mp hu).2),
      List.map_congr_left fun u hu => hden u (by
        have hb := (List.mem_filter.mp hu).2
        rw [Bool.not_eq_true'] at hb
        exact of_decide_eq_false hb)]
    exact formatter_assembly _ _ _
  · have hcaret : ∀ (k : Int), ∀ ch ∈ '^' :: intToDigits k, isJsSpace ch = false := by
      intro k ch hch
      rcases List.mem_cons.mp hch with rfl | hd
      · decide
      · exact (intToDigits_clean k ch hd).1
    have hatom : ∀ u ∈ l, ∀ (ext : List Char),
        (∀ ch ∈ ext, isJsSpace ch = false) →
        ∀ ch ∈ pfxStr u ++ u.unit ++ ext, isJsSpace ch = false := by
      intro u hu ext hext ch hch
      rcases List.mem_append.mp hch with h1 | h2
      · exact hclean u hu ch h1
      · exact hext ch h2
    have hext_pos : ∀ u : ParsedUnit,
        ∀ ch ∈ (if u.power ≠ 1 then '^' :: intToDigits u.power else []),
          isJsSpace ch = false := by
      intro u
      by_cases h : u.power ≠ 1
      · rw [if_pos h]
        exact hcaret _
      · rw [if_neg h]
        intro ch hch
        cases hch
    have hext_den : ∀ u : ParsedUnit,
        ∀ ch ∈ (if u.power ≠ -1 then '^' :: intToDigits (u.power * -1) else []),
          isJsSpace ch = false := by
      intro u
      by_cases h : u.power ≠ -1
      · rw [if_pos h]
        exact hcaret _
      · rw [if_neg h]
        intro ch hch
        cases hch
    have hchunks : ∀ (xs : List (List Char)),
        (∀ x ∈ xs, ∀ ch ∈ x, isJsSpace ch = false) →
        ∀ ch ∈ List.intercalate ['⋅'] xs, isJsSpace ch = false := by
      intro xs hxs ch hch
      rcases mem_intercalate _ _ _ hch with hs | ⟨x, hx, hcx⟩
      · rw [List.mem_singleton] at hs
        rw [hs]
        decide
      · exact hxs x hx ch hcx
    have hnumgood : ∀ x ∈ (l.filterMap fun u =>
        if u.power > 0 then
          some (pfxStr u ++ u.unit ++ (if u.power ≠ 1 then '^' :: intToDigits u.power else []))
        else none), ∀ ch ∈ x, isJsSpace ch = false := by
      intro x hx
      rcases List.mem_filterMap.mp hx with ⟨u, hu, hfu⟩
      by_cases hp : u.power > 0
      · rw [if_pos hp] at hfu
        have hx2 := Option.some.inj hfu
        rw [← hx2]
        exact hatom u hu _ (hext_pos u)
      · rw [if_neg hp] at hfu
        cases hfu
    have hdengood : ∀ x ∈ (l.filterMap fun u =>
        if u.power > 0 then none
        else
          some (pfxStr u ++ u.unit ++
            (if u.power ≠ -1 then '^' :: intToDigits (u.power * -1) else []))),
        ∀ ch ∈ x, isJsSpace ch = false := by
      intro x hx
      rcases List.mem_filterMap.mp hx with ⟨u, hu, hfu⟩
      by_cases hp : u.power > 0
      · rw [if_pos hp] at hfu
        cases hfu
      · rw [if_neg hp] at hfu
        have hx2 := Option.some.inj hfu
        rw [← hx2]
        exact hatom u hu _ (hext_den u)
    have hallgood : ∀ x ∈ (l.map fun u => pfxStr u ++ u.unit ++ '^' :: intToDigits u.power),
        ∀ ch ∈ x, isJsSpace ch = false := by
      intro x hx
      rcases List.mem_map.mp hx with ⟨u, hu, hfu⟩
      rw [← hfu]
      exact hatom u hu _ (hcaret _)
    intro ch hch
    simp only [toUnitString] at hch
    split at hch
    · split at hch
      · rcases List.mem_append.mp hch with h1 | h2
        · exact hchunks _ hnumgood ch h1
        · rcases List.mem_cons.mp h2 with rfl | h3
          · decide
          · exact hchunks _ hdengood ch h3
      · exact hchunks _ hallgood ch hch
    · exact hchunks _ hnumgood ch hch

/-- C9 witness: on `[km^2, s^-1]` the formatter agrees with the amended
description (`"km^2/s"`) and emits no whitespace. -/
theorem c9_formatter_amended_witness :
    toUnitString [⟨some "k".toList, "m".toList, 2⟩, ⟨none, "s".toList, -1⟩] =
      amendedRender [⟨some "k".toList, "m".toList, 2⟩, ⟨none, "s".toList, -1⟩] ∧
      ∀ ch ∈ toUnitString [⟨some "k".toList, "m".toList, 2⟩, ⟨none, "s".toList, -1⟩],
        isJsSpace ch = false :=
  c9_formatter_amended [⟨some "k".toList, "m".toList, 2⟩, ⟨none, "s".toList, -1⟩] (by decide)

/-- A slash-free string is a single section. -/
theorem splitOnSlash_no_slash (x : List Char) (h : '/' ∉ x) : splitOnSlash x = [x] := by
  induction x with
  | nil => rfl
  | cons c t ih =>
    have hc : ¬(c = '/') := fun he => h (by rw [he]; exact List.mem_cons_self _ _)
    unfold splitOnSlash
    rw [if_neg hc, ih fun hm => h (List.mem_cons_of_mem _ hm)]

/-- Splitting at a slash after a slash-free head peels the head section. -/
theorem splitOnSlash_append (a b : List Char) (ha : '/' ∉ a) :
    splitOnSlash (a ++ '/' :: b) = a :: splitOnSlash b := by
  induction a with
  | nil => rfl
  | cons c t ih =>
    have hc : ¬(c = '/') := fun he => ha (by rw [he]; exact List.mem_cons_self _ _)
    have hrec := ih fun hm => ha (List.mem_cons_of_mem _ hm)
    rw [List.cons_append]
    show (if c = '/' then [] :: splitOnSlash (t ++ '/' :: b)
          else match splitOnSlash (t ++ '/' :: b) with
               | u :: us => (c :: u) :: us
               | [] => [[c]]) = (c :: t) :: splitOnSlash b
    rw [if_neg hc, hrec]

/-- `parseUnits` on a one-slash string: parse both sections. -/
theorem parseUnits_split (a b : List Char)
    (extra : Option (List (List Char × UnitDef))) (ha : '/' ∉ a) (hb : '/' ∉ b) :
    parseUnits (a ++ '/' :: b) extra = do
      let numeratorParts ← (splitSep (jsTrim a)).mapM fun part => parseSingleUnit part extra
      let denominatorParts ← (splitSep (jsTrim b)).mapM fun part => parseSingleUnit part extra
      return numeratorParts ++ denominatorParts.map fun x => { x with power := x.power * -1 } := by
  unfold parseUnits
  rw [splitOnSlash_append a b ha, splitOnSlash_no_slash b hb]

/--
C5 (counterexample): `"/s"` does not parse.  The numerator section of
`"/s"` is the empty string, whose token list is the single empty token, and
the empty token fails with `UnknownUnit` — so a purely-denominator
expression is rejected, not parsed to `[s^-1]`.
-/
theorem c5_pure_denominator_counterexample :
    ¬ (parseUnits "/s".toList none = .ok [⟨none, "s".toList, -1⟩]) := by decide

/--
C5 (amended): a unit string with an *empty* numerator such as `"/s"` fails
with `UnknownUnit`; for a string whose numerator and denominator sections
both tokenize successfully, the denominator sub-units have their exponents
negated (multiplied by −1) and are concatenated after the numerator's.
-/
theorem c5_denominator_negation (extra : Option (List (List Char × UnitDef)))
    (a b : List Char) (L1 L2 : List ParsedUnit) (ha : '/' ∉ a) (hb : '/' ∉ b)
    (h1 : (splitSep (jsTrim a)).mapM (fun part => parseSingleUnit part extra) = .ok L1)
    (h2 : (splitSep (jsTrim b)).mapM (fun part => parseSingleUnit part extra) = .ok L2) :
    parseUnits (a ++ '/' :: b) extra =
      .ok (L1 ++ L2.map fun x => { x with power := x.power * -1 }) ∧
    parseUnits "/s".toList none = .error QuantityError.unknownUnit := by
  constructor
  · rw [parseUnits_split a b extra ha hb, h1, h2]
    rfl
  · decide

/-- C5 witness: `"m/s"` parses to `[m^1, s^-1]` through the general
denominator-negation law. -/
theorem c5_denominator_negation_witness :
    parseUnits ("m".toList ++ '/' :: "s".toList) none =
      .ok ([⟨none, "m".toList, 1⟩] ++
        [(⟨none, "s".toList, 1⟩ : ParsedUnit)].map fun x => { x with power := x.power * -1 }) :=
  (c5_denominator_negation none "m".toList "s".toList
    [⟨none, "m".toList, 1⟩] [⟨none, "s".toList, 1⟩]
    (by decide) (by decide) (by decide) (by decide)).1

set_option maxRecDepth 8000

/--
C1 (counterexample): with the unit table as stored in `src/units.ts` —
`degC` scale 1 offset 273.15, `degF` scale 5.555…e-1 offset 255.372… (both
offsets being SI-base-domain constants) — the conversion the repository's
tests require takes 100 degC to 212 degF (within the tests' relative
tolerance 1e-7), while the formula the claim states,
`((m_in + offset_in) · scale_in) / scale_out − offset_out`, evaluates there
to ≈ 416.3: it succeeds but misses 212 by far, so the claimed formula and
the claimed concrete result contradict each other on this input.
-/
theorem c1_spec_formula_counterexample :
    okWithin (convertStr 100 "degC".toList "degF".toList) 212 (212 / 10 ^ 7) = true ∧
      (specConvertStr 100 "degC".toList "degF".toList).isOk = true ∧
      okWithin (specConvertStr 100 "degC".toList "degF".toList) 212 (212 / 10 ^ 7) = false := by
  with_unfolding_all decide

/--
C1 (amended): the conversion engine converts a magnitude as
`m_out = (m_in · scale_in + offset_in − offset_out) / scale_out` — the
stored offsets are SI-base-domain constants — and only after the source and
target composite dimensions compare equal (offsets play no part: composite
dimensions are offset-free), failing with `InvalidConversion` otherwise; in
particular 100 degC converts to 212 degF within the tests' relative
tolerance 1e-7, and a mass-to-length conversion fails.
-/
theorem c1_convert_formula :
    (∀ (m : ℚ) (su tu : List ParsedUnit) (cs ct : Composite),
        reduceUnits su none = .ok cs → reduceUnits tu none = .ok ct →
        (Dimensions.equalTo cs.d ct.d = true →
          convertMagnitude m su tu none =
            .ok ((m * cs.scale + cs.offset - ct.offset) / ct.scale)) ∧
        (Dimensions.equalTo cs.d ct.d = false →
          convertMagnitude m su tu none = .error QuantityError.invalidConversion)) ∧
    okWithin (convertStr 100 "degC".toList "degF".toList) 212 (212 / 10 ^ 7) = true ∧
    convertStr 3 "kg".toList "m".toList = .error QuantityError.invalidConversion := by
  refine ⟨?_, by with_unfolding_all decide, by with_unfolding_all decide⟩
  intro m su tu cs ct hra hrb
  constructor
  · intro heq
    unfold convertMagnitude
    rw [hra, hrb]
    show (if Dimensions.equalTo cs.d ct.d = true then _ else _) = _
    rw [if_pos heq]
    rfl
  · intro hne
    unfold convertMagnitude
    rw [hra, hrb]
    show (if Dimensions.equalTo cs.d ct.d = true then _ else _) = _
    rw [if_neg (by rw [hne]; exact Bool.false_ne_true)]

/-- C1 witness: converting 1 metre to feet through the general law yields
`1·1/0.3048` (the engine's exact rational). -/
theorem c1_convert_formula_witness :
    convertMagnitude 1 [⟨none, "m".toList, 1⟩] [⟨none, "ft".toList, 1⟩] none =
      .ok ((1 * 1 + 0 - 0) / (381 / 1250)) :=
  (c1_convert_formula.1 1 [⟨none, "m".toList, 1⟩] [⟨none, "ft".toList, 1⟩]
      ⟨1, ⟨[0, 1, 0, 0, 0, 0, 0, 0], none, 0⟩, 0⟩
      ⟨381 / 1250, ⟨[0, 1, 0, 0, 0, 0, 0, 0], none, 0⟩, 0⟩
      (by with_unfolding_all decide) (by with_unfolding_all decide)).1
    (by with_unfolding_all decide)

/-- `parseSingleUnit` on a token with a caret: split and validate the
exponent, then resolve the name. -/
theorem parseSingleUnit_caret_eq (pre suf : List Char)
    (extra : Option (List (List Char × UnitDef))) (hpre : '^' ∉ pre) :
    parseSingleUnit (pre ++ '^' :: suf) extra =
      match jsNumber suf with
      | none => .error .invalidExponent
      | some q =>
        if q = 0 || q.den ≠ 1 then .error .invalidExponent
        else resolveUnitName extra pre q.num := by
  unfold parseSingleUnit
  rw [splitAtFirstCaret_append pre suf hpre]

/-- `parseSingleUnit` on a caret-free token resolves it with power 1. -/
theorem parseSingleUnit_nocaret_eq (tok : List Char)
    (extra : Option (List (List Char × UnitDef))) (h : '^' ∉ tok) :
    parseSingleUnit tok extra = resolveUnitName extra tok 1 := by
  unfold parseSingleUnit
  rw [splitAtFirstCaret_no_caret tok h]

/-- Character facts about the decimal digits, used when re-parsing rendered
exponents. -/
theorem digits_set_facts : ∀ c ∈ "0123456789".toList,
    isDigitChar c = true ∧ isJsSpace c = false ∧ ¬(c = '+') ∧ ¬(c = '-') ∧
    ¬(c = 'x') ∧ ¬(c = 'X') ∧ ¬(c = 'o') ∧ ¬(c = 'O') ∧ ¬(c = 'b') ∧ ¬(c = 'B') ∧
    ¬(c = 'I') ∧ ¬(c = '0') = (c ∈ ("123456789".toList)) := by decide

/-- Appending one digit multiplies the accumulated value by ten. -/
theorem digitsToNat_append (a : List Char) (c : Char) :
    digitsToNat (a ++ [c]) = 10 * digitsToNat a + (c.toNat - 48) := by
  unfold digitsToNat
  rw [List.foldl_append]
  rfl

/-- Reading back the digits of `n` recovers `n`. -/
theorem digitsToNat_natDigits (n : Nat) : digitsToNat (natDigits n) = n := by
  induction n using Nat.strong_induction_on with
  | _ n ih =>
    rw [natDigits_eq]
    by_cases h : n < 10
    · rw [if_pos h]
      interval_cases n <;> decide
    · rw [if_neg h, digitsToNat_append, ih (n / 10) (by omega)]
      have h2 : (digitChar (n % 10)).toNat - 48 = n % 10 := by
        have hm : n % 10 < 10 := Nat.mod_lt _ (by omega)
        generalize n % 10 = d at hm ⊢
        interval_cases d <;> decide
      rw [h2]
      omega

/-- `natDigits` always emits at least one digit. -/
theorem natDigits_ne_nil (n : Nat) : natDigits n ≠ [] := by
  rw [natDigits_eq]
  by_cases h : n < 10
  · rw [if_pos h]
    simp
  · rw [if_neg h]
    simp

/-- `takeWhile` keeps a list all of whose elements satisfy the predicate. -/
theorem takeWhile_all {α : Type} (p : α → Bool) (l : List α) (h : ∀ c ∈ l, p c = true) :
    l.takeWhile p = l := by
  induction l with
  | nil => rfl
  | cons a t ih =>
    rw [List.takeWhile_cons, if_pos (h a (List.mem_cons_self _ _)),
      ih fun c hc => h c (List.mem_cons_of_mem _ hc)]

/-- `dropWhile` empties a list all of whose elements satisfy the predicate. -/
theorem dropWhile_all {α : Type} (p : α → Bool) (l : List α) (h : ∀ c ∈ l, p c = true) :
    l.dropWhile p = [] := by
  induction l with
  | nil => rfl
  | cons a t ih =>
    rw [List.dropWhile_cons, if_pos (h a (List.mem_cons_self _ _))]
    exact ih fun c hc => h c (List.mem_cons_of_mem _ hc)

/-- `span` swallows a list all of whose elements satisfy the predicate. -/
theorem span_all {α : Type} (p : α → Bool) (l : List α) (h : ∀ c ∈ l, p c = true) :
    l.span p = (l, []) := by
  rw [List.span_eq_take_drop, takeWhile_all p l h, dropWhile_all p l h]

/-- `trim` leaves a whitespace-free list unchanged (left side). -/
theorem trimL_eq_self (l : List Char) (h : ∀ c ∈ l, isJsSpace c = false) : trimL l = l := by
  cases l with
  | nil => rfl
  | cons c t =>
    unfold trimL
    rw [List.dropWhile_cons, if_neg (by rw [h c (List.mem_cons_self _ _)]; exact Bool.false_ne_true)]

/-- `trim` leaves a whitespace-free list unchanged. -/
theorem jsTrim_eq_self (l : List Char) (h : ∀ c ∈ l, isJsSpace c = false) : jsTrim l = l := by
  unfold jsTrim
  rw [trimL_eq_self l h,
    trimL_eq_self l.reverse (fun c hc => h c (List.mem_reverse.mp hc)),
    List.reverse_reverse]

/-- A pure digit run is read by `jsDecimal` as its decimal value. -/
theorem jsDecimal_digits (ds : List Char) (hne : ds ≠ [])
    (hd : ∀ c ∈ ds, c ∈ "0123456789".toList) : jsDecimal ds = some (digitsToNat ds : ℚ) := by
  unfold jsDecimal
  rw [span_all (fun c => isDigitChar c) ds fun c hc => (digits_set_facts c (hd c hc)).1]
  show (if ds = [] then none else jsExpPart [] ((digitsToNat ds : ℚ))) = some (digitsToNat ds : ℚ)
  rw [if_neg hne]
  rfl

/-- A pure digit run is read by `jsNumber` as its decimal value. -/
theorem jsNumber_digits (ds : List Char) (hne : ds ≠ [])
    (hd : ∀ c ∈ ds, c ∈ "0123456789".toList) : jsNumber ds = some (digitsToNat ds : ℚ) := by
  cases ds with
  | nil => exact absurd rfl hne
  | cons c0 r =>
    have hc0 := digits_set_facts c0 (hd c0 (List.mem_cons_self _ _))
    unfold jsNumber
    rw [jsTrim_eq_self _ fun c hc => (digits_set_facts c (hd c hc)).2.1]
    show (if c0 = '+' then _
      else if c0 = '-' then _
      else if c0 = '0' then _
      else if (c0 :: r) = "Infinity".toList then none
      else jsDecimal (c0 :: r)) = some (digitsToNat (c0 :: r) : ℚ)
    rw [if_neg hc0.2.2.1, if_neg hc0.2.2.2.1]
    have hInf : ¬((c0 :: r) = "Infinity".toList) := by
      intro he
      injection he with he1 _
      exact hc0.2.2.2.2.2.2.2.2.2.2.1 he1
    by_cases h0 : c0 = '0'
    · rw [if_pos h0]
      cases r with
      | nil => exact jsDecimal_digits _ hne hd
      | cons x r2 =>
        have hx := digits_set_facts x (hd x (List.mem_cons_of_mem _ (List.mem_cons_self _ _)))
        show (if (x = 'x' || x = 'X') = true then _
          else if (x = 'o' || x = 'O') = true then _
          else if (x = 'b' || x = 'B') = true then _
          else jsDecimal (c0 :: x :: r2)) = _
        rw [if_neg (by rw [decide_eq_false hx.2.2.2.2.1, decide_eq_false hx.2.2.2.2.2.1]; decide),
          if_neg (by rw [decide_eq_false hx.2.2.2.2.2.2.1,
            decide_eq_false hx.2.2.2.2.2.2.2.1]; decide),
          if_neg (by rw [decide_eq_false hx.2.2.2.2.2.2.2.2.1,
            decide_eq_false hx.2.2.2.2.2.2.2.2.2.1]; decide)]
        exact jsDecimal_digits _ hne hd
    · rw [if_neg h0, if_neg hInf]
      exact jsDecimal_digits _ hne hd

/-- Re-reading a rendered integer through the JS `Number` semantics recovers
it exactly. -/
theorem jsNumber_intToDigits (p : Int) : jsNumber (intToDigits p) = some (p : ℚ) := by
  unfold intToDigits
  by_cases h : p < 0
  · rw [if_pos h]
    have hds := natDigits_mem_digits p.natAbs
    unfold jsNumber
    rw [jsTrim_eq_self _ (by
      intro c hc
      rcases List.mem_cons.mp hc with rfl | hm
      · decide
      · exact (digits_set_facts c (hds c hm)).2.1)]
    show (if '-' = '+' then _
      else if '-' = '-' then
        (if natDigits p.natAbs = "Infinity".toList then none
         else (jsDecimal (natDigits p.natAbs)).map fun q => -q)
      else _) = some (p : ℚ)
    have hInf : ¬(natDigits p.natAbs = "Infinity".toList) := by
      intro he
      match hnd : natDigits p.natAbs with
      | [] => exact natDigits_ne_nil _ hnd
      | d :: ds =>
        rw [hnd] at he
        injection he with he1
        have := digits_set_facts d (hds d (by rw [hnd]; exact List.mem_cons_self _ _))
        exact this.2.2.2.2.2.2.2.2.2.2.1 he1
    rw [if_neg (by decide), if_pos rfl, if_neg hInf,
      jsDecimal_digits _ (natDigits_ne_nil _) hds, digitsToNat_natDigits]
    have hcast : -((p.natAbs : ℚ)) = (p : ℚ) := by
      have h2 : ((p.natAbs : ℤ)) = -p := by omega
      calc -((p.natAbs : ℚ)) = -(((p.natAbs : ℤ) : ℚ)) := by rw [Int.cast_natCast]
        _ = -(((-p : ℤ) : ℚ)) := by rw [h2]
        _ = (p : ℚ) := by push_cast; ring
    rw [Option.map_some', hcast]
  · rw [if_neg h]
    rw [jsNumber_digits (natDigits p.natAbs) (natDigits_ne_nil _) (natDigits_mem_digits _),
      digitsToNat_natDigits]
    have hcast : ((p.natAbs : ℚ)) = (p : ℚ) := by
      have h2 : ((p.natAbs : ℤ)) = p := by omega
      calc ((p.natAbs : ℚ)) = (((p.natAbs : ℤ) : ℚ)) := by rw [Int.cast_natCast]
        _ = (p : ℚ) := by rw [h2]
    rw [hcast]

/-- An `ok` resolution reassembles to its input name, and resolving the same
name at any other power takes the same branch. -/
theorem resolveUnitName_ok_shape (extra : Option (List (List Char × UnitDef)))
    (name : List Char) (p : Int) (pu : ParsedUnit)
    (h : resolveUnitName extra name p = .ok pu) :
    pfxStr pu ++ pu.unit = name ∧
      ∀ p' : Int, resolveUnitName extra name p' = .ok ⟨pu.pfx, pu.unit, p'⟩ := by
  simp only [resolveUnitName] at h
  split_ifs at h with h1 h2 h3 h4
  · injection h with h'
    subst h'
    refine ⟨rfl, fun p' => ?_⟩
    simp only [resolveUnitName]
    rw [if_pos h1]
  · injection h with h'
    subst h'
    refine ⟨rfl, fun p' => ?_⟩
    simp only [resolveUnitName]
    rw [if_neg h1, if_pos h2]
  · injection h with h'
    subst h'
    refine ⟨List.take_append_drop 1 name, fun p' => ?_⟩
    simp only [resolveUnitName]
    rw [if_neg h1, if_neg h2, if_pos h3]
  · injection h with h'
    subst h'
    refine ⟨List.take_append_drop 2 name, fun p' => ?_⟩
    simp only [resolveUnitName]
    rw [if_neg h1, if_neg h2, if_neg h3, if_pos h4]

/-- The empty name resolves to nothing (built-in table only). -/
theorem resolveUnitName_nil (p : Int) :
    resolveUnitName none [] p = .error .unknownUnit := by
  have h1 : jsIn none ([] : List Char) = false := by decide
  have h2 : prefixes.lookup ([] : List Char) = none := by decide
  have h4 : tblGet none ([] : List Char) = none := by decide
  simp [resolveUnitName, h1, h2, h4]

/-- Every token splits at its first caret into a caret-free head and an
optional suffix. -/
theorem splitAtFirstCaret_spec (tok : List Char) :
    (splitAtFirstCaret tok = (tok, none) ∧ '^' ∉ tok) ∨
    ∃ pre suf, tok = pre ++ '^' :: suf ∧ '^' ∉ pre ∧
      splitAtFirstCaret tok = (pre, some suf) := by
  induction tok with
  | nil => exact Or.inl ⟨rfl, by simp⟩
  | cons c t ih =>
    by_cases hc : c = '^'
    · subst hc
      exact Or.inr ⟨[], t, rfl, by simp, by simp [splitAtFirstCaret]⟩
    · rcases ih with ⟨h1, h2⟩ | ⟨pre, suf, he, hp, hs⟩
      · refine Or.inl ⟨?_, ?_⟩
        · unfold splitAtFirstCaret
          rw [if_neg hc, h1]
        · intro hm
          rcases List.mem_cons.mp hm with hm1 | hm2
          · exact hc hm1.symm
          · exact h2 hm2
      · refine Or.inr ⟨c :: pre, suf, by rw [he, List.cons_append], ?_, ?_⟩
        · intro hm
          rcases List.mem_cons.mp hm with hm1 | hm2
          · exact hc hm1.symm
          · exact hp hm2
        · unfold splitAtFirstCaret
          rw [if_neg hc, hs]

/-- Inversion of a successful single-token parse: a caret-free head taken
from the token resolves to the result, whose power is nonzero. -/
theorem parseSingleUnit_ok_inv (tok : List Char)
    (extra : Option (List (List Char × UnitDef))) (pu : ParsedUnit)
    (h : parseSingleUnit tok extra = .ok pu) :
    ∃ pre : List Char, '^' ∉ pre ∧ (∀ c ∈ pre, c ∈ tok) ∧
      resolveUnitName extra pre pu.power = .ok pu ∧ pu.power ≠ 0 := by
  rcases splitAtFirstCaret_spec tok with ⟨-, hnc⟩ | ⟨pre, suf, he, hnc, -⟩
  · rw [parseSingleUnit_nocaret_eq tok extra hnc] at h
    have hp := resolveUnitName_ok_power extra tok 1 pu h
    refine ⟨tok, hnc, fun c hc => hc, by rw [hp]; exact h, by rw [hp]; decide⟩
  · rw [he, parseSingleUnit_caret_eq pre suf extra hnc] at h
    cases hq : jsNumber suf with
    | none =>
      rw [hq] at h
      cases h
    | some q =>
      rw [hq] at h
      have h' : (if (decide (q = 0) || decide (q.den ≠ 1)) = true then
          (Except.error QuantityError.invalidExponent : Except QuantityError ParsedUnit)
        else resolveUnitName extra pre q.num) = Except.ok pu := h
      clear h
      by_cases hz : (decide (q = 0) || decide (q.den ≠ 1)) = true
      · rw [if_pos hz] at h'
        cases h'
      · rw [if_neg hz] at h'
        have hp := resolveUnitName_ok_power extra pre q.num pu h'
        rw [Bool.or_eq_true_iff, not_or, decide_eq_true_eq, decide_eq_true_eq,
          Decidable.not_not] at hz
        have hnum : q.num ≠ 0 := by
          intro hn
          refine hz.1 ?_
          rw [← Rat.num_div_den q, hn, hz.2]
          simp
        refine ⟨pre, hnc, ?_, by rw [hp]; exact h', by rw [hp]; exact hnum⟩
        intro c hc
        rw [he]
        exact List.mem_append_left _ hc

/-- A successful single-token parse of a clean token yields a well-behaved
parsed unit: its reassembled name resolves at every power, is made of clean
characters, is nonempty, and its power is nonzero. -/
theorem parseSingleUnit_ok_good (tok : List Char) (pu : ParsedUnit)
    (htok : ∀ c ∈ tok, ¬(c = '⋅') ∧ isJsSpace c = false ∧ ¬(c = '/'))
    (h : parseSingleUnit tok none = .ok pu) :
    (∀ p' : Int, resolveUnitName none (pfxStr pu ++ pu.unit) p' = .ok ⟨pu.pfx, pu.unit, p'⟩) ∧
      (∀ c ∈ pfxStr pu ++ pu.unit, cleanChar c = true) ∧
      pfxStr pu ++ pu.unit ≠ [] ∧ pu.power ≠ 0 := by
  obtain ⟨pre, hnc, hsub, hres, hpz⟩ := parseSingleUnit_ok_inv tok none pu h
  obtain ⟨hshape, hdet⟩ := resolveUnitName_ok_shape none pre pu.power pu hres
  rw [hshape]
  refine ⟨hdet, ?_, ?_, hpz⟩
  · intro c hc
    have h2 := htok c (hsub c hc)
    have h3 : ¬(c = '^') := fun heq => hnc (by rw [← heq]; exact hc)
    unfold cleanChar
    rw [h2.2.1]
    simp [h2.1, h2.2.2, h3]
  · intro he
    rw [he, resolveUnitName_nil] at hres
    cases hres

/-- Successful monadic map over `Except`: every output comes from an input,
and the lengths agree. -/
theorem mapM_ok_mem {α β : Type} (f : α → Except QuantityError β) :
    ∀ (xs : List α) (L : List β), xs.mapM f = .ok L →
      (∀ b ∈ L, ∃ a ∈ xs, f a = .ok b) ∧ L.length = xs.length := by
  intro xs
  induction xs with
  | nil =>
    intro L h
    rw [List.mapM_nil] at h
    have hL : ([] : List β) = L := Except.ok.inj h
    subst hL
    exact ⟨fun b hb => absurd hb (List.not_mem_nil b), rfl⟩
  | cons a t ih =>
    intro L h
    rw [List.mapM_cons] at h
    cases hfa : f a with
    | error e =>
      rw [hfa] at h
      cases h
    | ok b0 =>
      rw [hfa] at h
      cases hft : t.mapM f with
      | error e =>
        rw [hft] at h
        cases h
      | ok bs =>
        rw [hft] at h
        have hL : b0 :: bs = L := Except.ok.inj h
        subst hL
        obtain ⟨ihm, ihl⟩ := ih bs hft
        refine ⟨?_, by simp [ihl]⟩
        intro b hb
        rcases List.mem_cons.mp hb with rfl | hb2
        · exact ⟨a, List.mem_cons_self _ _, hfa⟩
        · obtain ⟨a', ha', hfa'⟩ := ihm b hb2
          exact ⟨a', List.mem_cons_of_mem _ ha', hfa'⟩

/-- Reconstruction: mapping a parser over rendered inputs succeeds pointwise. -/
theorem mapM_map_ok {α γ : Type} (f : γ → Except QuantityError ParsedUnit) (r : α → γ)
    (g : α → ParsedUnit) :
    ∀ xs : List α, (∀ a ∈ xs, f (r a) = .ok (g a)) →
      (xs.map r).mapM f = .ok (xs.map g) := by
  intro xs
  induction xs with
  | nil => intro _; rfl
  | cons a t ih =>
    intro hall
    rw [List.map_cons, List.mapM_cons, hall a (List.mem_cons_self _ _),
      ih fun a' ha' => hall a' (List.mem_cons_of_mem _ ha')]
    rfl

/-- Characters of separator-split tokens contain neither `'⋅'` nor whitespace,
and come from the input. -/
theorem splitSepAux_tokens (l : List Char) : ∀ (b : Bool) (t : List Char),
    t ∈ splitSepAux l b → ∀ c ∈ t, (¬(c = '⋅') ∧ isJsSpace c = false) ∧ c ∈ l := by
  induction l with
  | nil =>
    intro b t ht c hc
    have hte : t = [] := List.mem_singleton.mp ht
    rw [hte] at hc
    cases hc
  | cons ch rest ih =>
    intro b t ht c hc
    unfold splitSepAux at ht
    by_cases h1 : ch = '⋅'
    · rw [if_pos h1] at ht
      rcases List.mem_cons.mp ht with rfl | ht2
      · cases hc
      · have h := ih false t ht2 c hc
        exact ⟨h.1, List.mem_cons_of_mem _ h.2⟩
    · rw [if_neg h1] at ht
      by_cases h2 : isJsSpace ch = true
      · rw [if_pos h2] at ht
        cases b with
        | true =>
          have h := ih true t ht c hc
          exact ⟨h.1, List.mem_cons_of_mem _ h.2⟩
        | false =>
          rcases List.mem_cons.mp (by simpa using ht) with rfl | ht2
          · cases hc
          · have h := ih true t ht2 c hc
            exact ⟨h.1, List.mem_cons_of_mem _ h.2⟩
      · rw [if_neg h2] at ht
        have h2' : isJsSpace ch = false := Bool.not_eq_true _ ▸ h2
        cases haux : splitSepAux rest false with
        | nil =>
          rw [haux] at ht
          have hte : t = [ch] := List.mem_singleton.mp ht
          rw [hte] at hc
          have hce : c = ch := List.mem_singleton.mp hc
          rw [hce]
          exact ⟨⟨h1, h2'⟩, List.mem_cons_self _ _⟩
        | cons t0 ts =>
          rw [haux] at ht
          rcases List.mem_cons.mp ht with rfl | ht2
          · rcases List.mem_cons.mp hc with rfl | hc2
            · exact ⟨⟨h1, h2'⟩, List.mem_cons_self _ _⟩
            · have h := ih false t0 (haux ▸ List.mem_cons_self _ _) c hc2
              exact ⟨h.1, List.mem_cons_of_mem _ h.2⟩
          · have h := ih false t (haux ▸ List.mem_cons_of_mem _ ht2) c hc
            exact ⟨h.1, List.mem_cons_of_mem _ h.2⟩

/-- Trimming only keeps characters of the input. -/
theorem jsTrim_subset (l : List Char) : ∀ c ∈ jsTrim l, c ∈ l := by
  intro c hc
  unfold jsTrim trimL at hc
  have h1 := (List.dropWhile_sublist (l := ((l.dropWhile fun c => isJsSpace c).reverse))
    (p := fun c => isJsSpace c)).subset (List.mem_reverse.mp hc)
  exact (List.dropWhile_sublist (l := l) (p := fun c => isJsSpace c)).subset
    (List.mem_reverse.mp h1)

/-- Characters of slash-split sections are not `'/'` and come from the input. -/
theorem splitOnSlash_sections : ∀ (s : List Char) (sec : List Char),
    sec ∈ splitOnSlash s → ∀ c ∈ sec, ¬(c = '/') ∧ c ∈ s := by
  intro s
  induction s with
  | nil =>
    intro sec hsec c hc
    have hse : sec = [] := List.mem_singleton.mp hsec
    rw [hse] at hc
    cases hc
  | cons ch rest ih =>
    intro sec hsec c hc
    unfold splitOnSlash at hsec
    by_cases h1 : ch = '/'
    · rw [if_pos h1] at hsec
      rcases List.mem_cons.mp hsec with rfl | h2
      · cases hc
      · have h := ih sec h2 c hc
        exact ⟨h.1, List.mem_cons_of_mem _ h.2⟩
    · rw [if_neg h1] at hsec
      cases haux : splitOnSlash rest with
      | nil =>
        rw [haux] at hsec
        have hse : sec = [ch] := List.mem_singleton.mp hsec
        rw [hse] at hc
        have hce : c = ch := List.mem_singleton.mp hc
        rw [hce]
        exact ⟨h1, List.mem_cons_self _ _⟩
      | cons t0 ts =>
        rw [haux] at hsec
        rcases List.mem_cons.mp hsec with rfl | h2
        · rcases List.mem_cons.mp hc with rfl | hc2
          · exact ⟨h1, List.mem_cons_self _ _⟩
          · have h := ih t0 (haux ▸ List.mem_cons_self _ _) c hc2
            exact ⟨h.1, List.mem_cons_of_mem _ h.2⟩
        · have h := ih sec (haux ▸ List.mem_cons_of_mem _ h2) c hc
          exact ⟨h.1, List.mem_cons_of_mem _ h.2⟩

/-- Every parsed unit of a successfully tokenized section is well behaved:
its reassembled name resolves deterministically at every power, is clean and
nonempty, and its power is nonzero. -/
theorem section_tokens_good (sec : List Char) (hsec : ∀ c ∈ sec, ¬(c = '/'))
    (L1 : List ParsedUnit)
    (h : (splitSep (jsTrim sec)).mapM (fun part => parseSingleUnit part none) = .ok L1) :
    ∀ pu ∈ L1,
      (∀ p' : Int, resolveUnitName none (pfxStr pu ++ pu.unit) p' = .ok ⟨pu.pfx, pu.unit, p'⟩) ∧
        (∀ c ∈ pfxStr pu ++ pu.unit, cleanChar c = true) ∧
        pfxStr pu ++ pu.unit ≠ [] ∧ pu.power ≠ 0 := by
  intro pu hpu
  obtain ⟨hmem, -⟩ := mapM_ok_mem _ _ _ h
  obtain ⟨tok, htok, hparse⟩ := hmem pu hpu
  refine parseSingleUnit_ok_good tok pu ?_ hparse
  intro c hc
  have h1 := splitSepAux_tokens (jsTrim sec) false tok htok c hc
  exact ⟨h1.1.1, h1.1.2, hsec c (jsTrim_subset sec c h1.2)⟩

/-- Unpacking of the clean-character predicate. -/
theorem cleanChar_spec (c : Char) (h : cleanChar c = true) :
    isJsSpace c = false ∧ ¬(c = '⋅') ∧ ¬(c = '/') ∧ ¬(c = '^') := by
  unfold cleanChar at h
  simp only [Bool.and_eq_true, Bool.not_eq_true', decide_eq_true_eq] at h
  exact ⟨h.1.1.1, h.1.1.2, h.1.2, h.2⟩

/-- Separator splitting always produces at least one token. -/
theorem splitSepAux_ne_nil (l : List Char) : ∀ b, splitSepAux l b ≠ [] := by
  induction l with
  | nil =>
    intro b
    simp [splitSepAux]
  | cons c rest ih =>
    intro b
    unfold splitSepAux
    by_cases h1 : c = '⋅'
    · rw [if_pos h1]
      simp
    · rw [if_neg h1]
      by_cases h2 : isJsSpace c = true
      · rw [if_pos h2]
        cases b with
        | true => simpa using ih true
        | false => simp
      · rw [if_neg h2]
        cases haux : splitSepAux rest false with
        | nil => simp
        | cons t ts => simp

/-- A separator-free string is a single token. -/
theorem splitSepAux_no_sep (t : List Char)
    (h : ∀ c ∈ t, ¬(c = '⋅') ∧ isJsSpace c = false) : splitSepAux t false = [t] := by
  induction t with
  | nil => rfl
  | cons c r ih =>
    have hc := h c (List.mem_cons_self _ _)
    have hr := ih fun c' hc' => h c' (List.mem_cons_of_mem _ hc')
    unfold splitSepAux
    rw [if_neg hc.1, if_neg (by simp [hc.2]), hr]

/-- Splitting peels a separator-free token before an explicit `'⋅'`. -/
theorem splitSepAux_append_sep (t suffix : List Char)
    (h : ∀ c ∈ t, ¬(c = '⋅') ∧ isJsSpace c = false) :
    splitSepAux (t ++ '⋅' :: suffix) false = t :: splitSepAux suffix false := by
  induction t with
  | nil =>
    show splitSepAux ('⋅' :: suffix) false = [] :: splitSepAux suffix false
    conv_lhs => unfold splitSepAux
    rw [if_pos rfl]
  | cons c r ih =>
    have hc := h c (List.mem_cons_self _ _)
    have hr := ih fun c' hc' => h c' (List.mem_cons_of_mem _ hc')
    rw [List.cons_append]
    show (if c = '⋅' then [] :: splitSepAux (r ++ '⋅' :: suffix) false
          else if isJsSpace c = true then
            (if (false : Bool) = true then splitSepAux (r ++ '⋅' :: suffix) true
             else [] :: splitSepAux (r ++ '⋅' :: suffix) true)
          else match splitSepAux (r ++ '⋅' :: suffix) false with
               | t0 :: ts => (c :: t0) :: ts
               | [] => [[c]]) = (c :: r) :: splitSepAux suffix false
    rw [if_neg hc.1, if_neg (by simp [hc.2]), hr]

/-- Separator splitting inverts `intercalate` on separator-free tokens. -/
theorem splitSep_intercalate : ∀ ts : List (List Char), ts ≠ [] →
    (∀ t ∈ ts, ∀ c ∈ t, ¬(c = '⋅') ∧ isJsSpace c = false) →
    splitSep (List.intercalate ['⋅'] ts) = ts := by
  intro ts
  induction ts with
  | nil =>
    intro h _
    cases h rfl
  | cons t rest ih =>
    intro _ hall
    cases rest with
    | nil =>
      rw [intercalate_singleton]
      exact splitSepAux_no_sep t (hall t (List.mem_cons_self _ _))
    | cons t2 rest2 =>
      rw [intercalate_cons_cons]
      unfold splitSep
      have hre : (t ++ ['⋅']) ++ List.intercalate ['⋅'] (t2 :: rest2) =
          t ++ '⋅' :: List.intercalate ['⋅'] (t2 :: rest2) := by
        rw [List.append_assoc]
        rfl
      rw [hre, splitSepAux_append_sep t _ (hall t (List.mem_cons_self _ _))]
      have hrec := ih (by simp) fun t' ht' => hall t' (List.mem_cons_of_mem _ ht')
      unfold splitSep at hrec
      rw [hrec]

/-- Full inversion of a successful parse: the output list is nonempty and
every entry is well behaved. -/
theorem parseUnits_ok_good (s : List Char) (L : List ParsedUnit)
    (h : parseUnits s none = .ok L) :
    L ≠ [] ∧ ∀ pu ∈ L,
      (∀ p' : Int, resolveUnitName none (pfxStr pu ++ pu.unit) p' = .ok ⟨pu.pfx, pu.unit, p'⟩) ∧
        (∀ c ∈ pfxStr pu ++ pu.unit, cleanChar c = true) ∧
        pfxStr pu ++ pu.unit ≠ [] ∧ pu.power ≠ 0 := by
  unfold parseUnits at h
  cases hsp : splitOnSlash s with
  | nil =>
    rw [hsp] at h
    cases h
  | cons sec0 secs =>
    rw [hsp] at h
    cases secs with
    | nil =>
      have h' : (splitSep (jsTrim sec0)).mapM (fun part => parseSingleUnit part none)
          = .ok L := h
      refine ⟨?_, section_tokens_good sec0
        (fun c hc => (splitOnSlash_sections s sec0 (hsp ▸ List.mem_cons_self _ _) c hc).1) L h'⟩
      obtain ⟨-, hlen⟩ := mapM_ok_mem _ _ _ h'
      intro hLnil
      rw [hLnil] at hlen
      exact splitSepAux_ne_nil (jsTrim sec0) false (List.length_eq_zero.mp hlen.symm)
    | cons sec1 secs2 =>
      cases secs2 with
      | cons a b => cases h
      | nil =>
        have h' : (do
            let numeratorParts ← (splitSep (jsTrim sec0)).mapM
              (fun part => parseSingleUnit part none)
            let denominatorParts ← (splitSep (jsTrim sec1)).mapM
              (fun part => parseSingleUnit part none)
            return numeratorParts ++ denominatorParts.map
              (fun x => { x with power := x.power * -1 })) = Except.ok L := h
        clear h
        cases hm1 : (splitSep (jsTrim sec0)).mapM (fun part => parseSingleUnit part none) with
        | error e =>
          rw [hm1] at h'
          cases h'
        | ok L1 =>
          rw [hm1] at h'
          cases hm2 : (splitSep (jsTrim sec1)).mapM (fun part => parseSingleUnit part none) with
          | error e =>
            rw [hm2] at h'
            cases h'
          | ok L2 =>
            rw [hm2] at h'
            have hL : L1 ++ L2.map (fun x => { x with power := x.power * -1 }) = L :=
              Except.ok.inj h'
            have hg0 : sec0 ∈ splitOnSlash s := hsp ▸ List.mem_cons_self _ _
            have hg1 : sec1 ∈ splitOnSlash s :=
              hsp ▸ List.mem_cons_of_mem _ (List.mem_cons_self _ _)
            have hgood1 := section_tokens_good sec0
              (fun c hc => (splitOnSlash_sections s sec0 hg0 c hc).1) L1 hm1
            have hgood2 := section_tokens_good sec1
              (fun c hc => (splitOnSlash_sections s sec1 hg1 c hc).1) L2 hm2
            constructor
            · intro hLnil
              obtain ⟨-, hlen⟩ := mapM_ok_mem _ _ _ hm1
              have hL1 : L1 = [] := by
                rw [← hL] at hLnil
                exact (List.append_eq_nil.mp hLnil).1
              rw [hL1] at hlen
              exact splitSepAux_ne_nil (jsTrim sec0) false (List.length_eq_zero.mp hlen.symm)
            · intro pu hpu
              rw [← hL] at hpu
              rcases List.mem_append.mp hpu with h1 | h2
              · exact hgood1 pu h1
              · obtain ⟨x, hx, hxe⟩ := List.mem_map.mp h2
                obtain ⟨ha, hb, hcc, hd⟩ := hgood2 x hx
                rw [← hxe]
                refine ⟨ha, hb, hcc, ?_⟩
                show x.power * -1 ≠ 0
                intro h0
                exact hd (by omega)

/-- Parsing a clean name followed by a rendered integer exponent resolves
the name at that exponent. -/
theorem parseSingleUnit_name_caret_digits (name : List Char) (p : Int)
    (hclean : ∀ c ∈ name, cleanChar c = true) (hp : p ≠ 0) :
    parseSingleUnit (name ++ '^' :: intToDigits p) none =
      resolveUnitName none name p := by
  have hnc : '^' ∉ name := fun hm => (cleanChar_spec _ (hclean _ hm)).2.2.2 rfl
  rw [parseSingleUnit_caret_eq name (intToDigits p) none hnc, jsNumber_intToDigits]
  have hq0 : ¬((p : ℚ) = 0) := by exact_mod_cast hp
  have hnum : ((p : ℤ) : ℚ).num = p := Rat.intCast_num p
  have hden : ((p : ℤ) : ℚ).den = 1 := Rat.intCast_den p
  show (if (p : ℚ) = 0 || ((p : ℚ)).den ≠ 1 then
      (Except.error QuantityError.invalidExponent : Except QuantityError ParsedUnit)
    else resolveUnitName none name ((p : ℚ)).num) = resolveUnitName none name p
  rw [if_neg (by simp [hq0, hden]), hnum]

/-- Re-parsing a sub-unit rendered with its signed power explicit returns
the sub-unit unchanged. -/
theorem reparse_rendered_signed (u : ParsedUnit)
    (hres : ∀ p' : Int, resolveUnitName none (pfxStr u ++ u.unit) p' = .ok ⟨u.pfx, u.unit, p'⟩)
    (hclean : ∀ c ∈ pfxStr u ++ u.unit, cleanChar c = true) (hp : u.power ≠ 0) :
    parseSingleUnit (pfxStr u ++ u.unit ++ '^' :: intToDigits u.power) none = .ok u := by
  rw [parseSingleUnit_name_caret_digits _ _ hclean hp, hres u.power]

/-- Re-parsing a numerator-rendered sub-unit (exponent suffix omitted at
power one) returns the sub-unit unchanged. -/
theorem reparse_rendered_pos (u : ParsedUnit)
    (hres : ∀ p' : Int, resolveUnitName none (pfxStr u ++ u.unit) p' = .ok ⟨u.pfx, u.unit, p'⟩)
    (hclean : ∀ c ∈ pfxStr u ++ u.unit, cleanChar c = true) (hp : u.power ≠ 0) :
    parseSingleUnit
      (pfxStr u ++ u.unit ++ (if u.power ≠ 1 then '^' :: intToDigits u.power else []))
      none = .ok u := by
  by_cases h1 : u.power = 1
  · rw [if_neg (not_not_intro h1), List.append_nil]
    have hnc : '^' ∉ pfxStr u ++ u.unit :=
      fun hm => (cleanChar_spec _ (hclean _ hm)).2.2.2 rfl
    rw [parseSingleUnit_nocaret_eq _ none hnc, hres 1, ← h1]
  · rw [if_pos h1]
    exact reparse_rendered_signed u hres hclean hp

/-- Re-parsing a denominator-rendered sub-unit (sign dropped, exponent
suffix omitted at power minus one) returns the sub-unit with its power
negated. -/
theorem reparse_rendered_neg (u : ParsedUnit)
    (hres : ∀ p' : Int, resolveUnitName none (pfxStr u ++ u.unit) p' = .ok ⟨u.pfx, u.unit, p'⟩)
    (hclean : ∀ c ∈ pfxStr u ++ u.unit, cleanChar c = true) (hp : u.power ≠ 0) :
    parseSingleUnit
      (pfxStr u ++ u.unit ++ (if u.power ≠ -1 then '^' :: intToDigits (u.power * -1) else []))
      none = .ok ⟨u.pfx, u.unit, u.power * -1⟩ := by
  by_cases h1 : u.power = -1
  · rw [if_neg (not_not_intro h1), List.append_nil]
    have hnc : '^' ∉ pfxStr u ++ u.unit :=
      fun hm => (cleanChar_spec _ (hclean _ hm)).2.2.2 rfl
    rw [parseSingleUnit_nocaret_eq _ none hnc, hres 1, h1]
    norm_num
  · rw [if_pos h1]
    rw [parseSingleUnit_name_caret_digits _ _ hclean (by omega : u.power * -1 ≠ 0),
      hres (u.power * -1)]

/-- Characters of a rendered token (clean name plus optional exponent part)
are neither separators, whitespace, nor slashes. -/
theorem render_chars (u : ParsedUnit) (e : List Char)
    (hclean : ∀ c ∈ pfxStr u ++ u.unit, cleanChar c = true)
    (he : ∀ c ∈ e, ¬(c = '⋅') ∧ isJsSpace c = false ∧ ¬(c = '/')) :
    ∀ c ∈ pfxStr u ++ u.unit ++ e, ¬(c = '⋅') ∧ isJsSpace c = false ∧ ¬(c = '/') := by
  intro c hc
  rcases List.mem_append.mp hc with h1 | h2
  · have h := cleanChar_spec c (hclean c h1)
    exact ⟨h.2.1, h.1, h.2.2.1⟩
  · exact he c h2

/-- Characters of a rendered exponent part are neither separators,
whitespace, nor slashes. -/
theorem caretDigits_chars (p : Int) :
    ∀ c ∈ '^' :: intToDigits p, ¬(c = '⋅') ∧ isJsSpace c = false ∧ ¬(c = '/') := by
  intro c hc
  rcases List.mem_cons.mp hc with rfl | h2
  · exact ⟨by decide, by decide, by decide⟩
  · have h1 := intToDigits_clean p c h2
    have h3 := cleanChar_spec c h1.2
    exact ⟨h3.2.1, h1.1, h3.2.2.1⟩

/-- On a slash-free string `parseUnits` is the numerator-only branch. -/
theorem parseUnits_no_slash (x : List Char) (hx : '/' ∉ x) :
    parseUnits x none =
      (splitSep (jsTrim x)).mapM (fun part => parseSingleUnit part none) := by
  unfold parseUnits
  rw [splitOnSlash_no_slash x hx]

/-- On a string with exactly one slash between slash-free sections,
`parseUnits` is the numerator/denominator branch. -/
theorem parseUnits_slash (a b : List Char) (ha : '/' ∉ a) (hb : '/' ∉ b) :
    parseUnits (a ++ '/' :: b) none = (do
      let numeratorParts ← (splitSep (jsTrim a)).mapM (fun part => parseSingleUnit part none)
      let denominatorParts ← (splitSep (jsTrim b)).mapM (fun part => parseSingleUnit part none)
      return numeratorParts ++ denominatorParts.map
        (fun x => { x with power := x.power * -1 })) := by
  unfold parseUnits
  rw [splitOnSlash_append a b ha, splitOnSlash_no_slash b hb]

/-- Character facts for a numerator-rendered token. -/
theorem rendered_pos_chars (u : ParsedUnit)
    (hclean : ∀ c ∈ pfxStr u ++ u.unit, cleanChar c = true) :
    ∀ c ∈ pfxStr u ++ u.unit ++ (if u.power ≠ 1 then '^' :: intToDigits u.power else []),
      ¬(c = '⋅') ∧ isJsSpace c = false ∧ ¬(c = '/') := by
  refine render_chars u _ hclean ?_
  intro c' hc'
  by_cases h1 : u.power ≠ 1
  · rw [if_pos h1] at hc'
    exact caretDigits_chars u.power c' hc'
  · rw [if_neg h1] at hc'
    cases hc'

/-- Character facts for a denominator-rendered token. -/
theorem rendered_neg_chars (u : ParsedUnit)
    (hclean : ∀ c ∈ pfxStr u ++ u.unit, cleanChar c = true) :
    ∀ c ∈ pfxStr u ++ u.unit ++
        (if u.power ≠ -1 then '^' :: intToDigits (u.power * -1) else []),
      ¬(c = '⋅') ∧ isJsSpace c = false ∧ ¬(c = '/') := by
  refine render_chars u _ hclean ?_
  intro c' hc'
  by_cases h1 : u.power ≠ -1
  · rw [if_pos h1] at hc'
    exact caretDigits_chars (u.power * -1) c' hc'
  · rw [if_neg h1] at hc'
    cases hc'

/-- Character facts for a signed-power-rendered token. -/
theorem rendered_signed_chars (u : ParsedUnit)
    (hclean : ∀ c ∈ pfxStr u ++ u.unit, cleanChar c = true) :
    ∀ c ∈ pfxStr u ++ u.unit ++ '^' :: intToDigits u.power,
      ¬(c = '⋅') ∧ isJsSpace c = false ∧ ¬(c = '/') := by
  exact render_chars u _ hclean (caretDigits_chars u.power)

/-- A `⋅`-joined list of slash-free tokens is slash-free. -/
theorem intercalate_rendered_no_slash (M : List ParsedUnit)
    (render : ParsedUnit → List Char)
    (hchars : ∀ u ∈ M, ∀ c ∈ render u, ¬(c = '⋅') ∧ isJsSpace c = false ∧ ¬(c = '/')) :
    '/' ∉ List.intercalate ['⋅'] (M.map render) := by
  intro hc
  rcases mem_intercalate _ _ _ hc with h1 | ⟨t, ht, hct⟩
  · exact absurd (List.mem_singleton.mp h1) (by decide)
  · obtain ⟨u, hu, hue⟩ := List.mem_map.mp ht
    exact (hchars u hu '/' (hue ▸ hct)).2.2 rfl

/-- The numerator-branch token pipeline re-parses a rendered section:
trimming is the identity, the separator split recovers the tokens, and each
token parses pointwise. -/
theorem parse_section_rendered (M : List ParsedUnit) (g : ParsedUnit → ParsedUnit)
    (render : ParsedUnit → List Char) (hM : M ≠ [])
    (hrender : ∀ u ∈ M, parseSingleUnit (render u) none = .ok (g u))
    (hchars : ∀ u ∈ M, ∀ c ∈ render u, ¬(c = '⋅') ∧ isJsSpace c = false ∧ ¬(c = '/')) :
    (splitSep (jsTrim (List.intercalate ['⋅'] (M.map render)))).mapM
      (fun part => parseSingleUnit part none) = .ok (M.map g) := by
  have htoks : ∀ t ∈ M.map render, ∀ c ∈ t, ¬(c = '⋅') ∧ isJsSpace c = false := by
    intro t ht c hc
    obtain ⟨u, hu, hue⟩ := List.mem_map.mp ht
    have h := hchars u hu c (hue ▸ hc)
    exact ⟨h.1, h.2.1⟩
  have hnosp : ∀ c ∈ List.intercalate ['⋅'] (M.map render), isJsSpace c = false := by
    intro c hc
    rcases mem_intercalate _ _ _ hc with h1 | ⟨t, ht, hct⟩
    · rw [List.mem_singleton.mp h1]
      decide
    · exact (htoks t ht c hct).2
  rw [jsTrim_eq_self _ hnosp,
    splitSep_intercalate (M.map render) (by simpa using hM) htoks]
  exact mapM_map_ok _ render g M hrender

/-- Re-parsing the rendering of a list of well-behaved parsed units succeeds
and returns a permutation of the list. -/
theorem toUnitString_reparse (L : List ParsedUnit) (hL : L ≠ [])
    (hgood : ∀ pu ∈ L,
      (∀ p' : Int, resolveUnitName none (pfxStr pu ++ pu.unit) p' = .ok ⟨pu.pfx, pu.unit, p'⟩) ∧
        (∀ c ∈ pfxStr pu ++ pu.unit, cleanChar c = true) ∧
        pfxStr pu ++ pu.unit ≠ [] ∧ pu.power ≠ 0) :
    ∃ L2, parseUnits (toUnitString L) none = .ok L2 ∧ L2.Perm L := by
  have hperm := List.filter_append_perm (fun u => decide (u.power > 0)) L
  simp only [toUnitString]
  rw [filterMap_if_eq_filter_map (fun u : ParsedUnit => u.power > 0)
      (fun u => pfxStr u ++ u.unit ++
        (if u.power ≠ 1 then '^' :: intToDigits u.power else [])) L,
    filterMap_ifnot_eq_filter_map (fun u : ParsedUnit => u.power > 0)
      (fun u => pfxStr u ++ u.unit ++
        (if u.power ≠ -1 then '^' :: intToDigits (u.power * -1) else [])) L]
  have hposchars : ∀ u ∈ L.filter (fun u => decide (u.power > 0)),
      ∀ c ∈ pfxStr u ++ u.unit ++ (if u.power ≠ 1 then '^' :: intToDigits u.power else []),
        ¬(c = '⋅') ∧ isJsSpace c = false ∧ ¬(c = '/') :=
    fun u hu => rendered_pos_chars u (hgood u (List.mem_filter.mp hu).1).2.1
  have hnegchars : ∀ u ∈ L.filter (fun u => !decide (u.power > 0)),
      ∀ c ∈ pfxStr u ++ u.unit ++
          (if u.power ≠ -1 then '^' :: intToDigits (u.power * -1) else []),
        ¬(c = '⋅') ∧ isJsSpace c = false ∧ ¬(c = '/') :=
    fun u hu => rendered_neg_chars u (hgood u (List.mem_filter.mp hu).1).2.1
  by_cases hneg : L.filter (fun u => !decide (u.power > 0)) = []
  · rw [hneg, List.map_nil]
    rw [if_neg (by simp)]
    have hpos_ne : L.filter (fun u => decide (u.power > 0)) ≠ [] := by
      intro h0
      apply hL
      have hlen := hperm.length_eq
      rw [h0, hneg] at hlen
      exact List.length_eq_zero.mp hlen.symm
    rw [hneg, List.append_nil] at hperm
    refine ⟨L.filter (fun u => decide (u.power > 0)), ?_, hperm⟩
    rw [parseUnits_no_slash _ (intercalate_rendered_no_slash _ _ hposchars)]
    have hmA := parse_section_rendered (L.filter (fun u => decide (u.power > 0))) id
      (fun u => pfxStr u ++ u.unit ++
        (if u.power ≠ 1 then '^' :: intToDigits u.power else []))
      hpos_ne
      (fun u hu => reparse_rendered_pos u
        (hgood u (List.mem_filter.mp hu).1).1
        (hgood u (List.mem_filter.mp hu).1).2.1
        (hgood u (List.mem_filter.mp hu).1).2.2.2)
      hposchars
    rw [hmA, List.map_id]
  · by_cases hpos : L.filter (fun u => decide (u.power > 0)) = []
    · rw [if_pos (by simp [hneg]), if_neg (by simp [hpos])]
      refine ⟨L, ?_, List.Perm.refl L⟩
      rw [parseUnits_no_slash _ (intercalate_rendered_no_slash L _
        (fun u hu => rendered_signed_chars u (hgood u hu).2.1))]
      have hmA := parse_section_rendered L id
        (fun u => pfxStr u ++ u.unit ++ '^' :: intToDigits u.power) hL
        (fun u hu => reparse_rendered_signed u
          (hgood u hu).1 (hgood u hu).2.1 (hgood u hu).2.2.2)
        (fun u hu => rendered_signed_chars u (hgood u hu).2.1)
      rw [hmA, List.map_id]
    · rw [if_pos (by simp [hneg]), if_pos (by simp [hpos])]
      refine ⟨L.filter (fun u => decide (u.power > 0)) ++
        L.filter (fun u => !decide (u.power > 0)), ?_, hperm⟩
      rw [parseUnits_slash _ _ (intercalate_rendered_no_slash _ _ hposchars)
        (intercalate_rendered_no_slash _ _ hnegchars)]
      have hmA := parse_section_rendered (L.filter (fun u => decide (u.power > 0))) id
        (fun u => pfxStr u ++ u.unit ++
          (if u.power ≠ 1 then '^' :: intToDigits u.power else []))
        hpos
        (fun u hu => reparse_rendered_pos u
          (hgood u (List.mem_filter.mp hu).1).1
          (hgood u (List.mem_filter.mp hu).1).2.1
          (hgood u (List.mem_filter.mp hu).1).2.2.2)
        hposchars
      have hmB := parse_section_rendered (L.filter (fun u => !decide (u.power > 0)))
        (fun u => ⟨u.pfx, u.unit, u.power * -1⟩)
        (fun u => pfxStr u ++ u.unit ++
          (if u.power ≠ -1 then '^' :: intToDigits (u.power * -1) else []))
        hneg
        (fun u hu => reparse_rendered_neg u
          (hgood u (List.mem_filter.mp hu).1).1
          (hgood u (List.mem_filter.mp hu).1).2.1
          (hgood u (List.mem_filter.mp hu).1).2.2.2)
        hnegchars
      rw [hmA, hmB]
      have hfinal : ((L.filter (fun u => !decide (u.power > 0))).map
            (fun u => (⟨u.pfx, u.unit, u.power * -1⟩ : ParsedUnit))).map
          (fun x => { x with power := x.power * -1 }) =
          L.filter (fun u => !decide (u.power > 0)) := by
        rw [List.map_map]
        have h1 : ∀ u ∈ L.filter (fun u => !decide (u.power > 0)),
            ((fun x => { x with power := x.power * -1 }) ∘
              (fun u => (⟨u.pfx, u.unit, u.power * -1⟩ : ParsedUnit))) u = id u := by
          intro u _
          show ({ pfx := u.pfx, unit := u.unit, power := u.power * -1 * -1 } : ParsedUnit) = u
          have h2 : u.power * -1 * -1 = u.power := by ring
          rw [h2]
        rw [List.map_congr_left h1, List.map_id]
      show Except.ok ((L.filter (fun u => decide (u.power > 0))).map id ++
          ((L.filter (fun u => !decide (u.power > 0))).map
            (fun u => (⟨u.pfx, u.unit, u.power * -1⟩ : ParsedUnit))).map
          (fun x => { x with power := x.power * -1 })) =
        Except.ok (L.filter (fun u => decide (u.power > 0)) ++
          L.filter (fun u => !decide (u.power > 0)))
      rw [List.map_id, hfinal]

/--
C3: for every unit string that parses successfully, parsing the formatter's
rendering of the parsed list succeeds and yields the same parsed-unit
multiset (a permutation of the original list).
-/
theorem c3_formatter_idempotence (s : List Char) (L : List ParsedUnit)
    (h : parseUnits s none = .ok L) :
    ∃ L2, parseUnits (toUnitString L) none = .ok L2 ∧ L2.Perm L := by
  obtain ⟨hL, hgood⟩ := parseUnits_ok_good s L h
  exact toUnitString_reparse L hL hgood

/-- Witness for C3 at the concrete input `"m/s"`. -/
theorem c3_formatter_idempotence_witness :
    parseUnits "m/s".toList none =
        .ok [⟨none, "m".toList, 1⟩, ⟨none, "s".toList, -1⟩] ∧
      ∃ L2, parseUnits (toUnitString [⟨none, "m".toList, 1⟩, ⟨none, "s".toList, -1⟩]) none
          = .ok L2 ∧ L2.Perm [⟨none, "m".toList, 1⟩, ⟨none, "s".toList, -1⟩] :=
  ⟨by decide, c3_formatter_idempotence "m/s".toList
    [⟨none, "m".toList, 1⟩, ⟨none, "s".toList, -1⟩] (by decide)⟩

end QuantityMathJs
